import Mathlib

set_option linter.unusedVariables false

/-!
Verification of the Merkle Patricia Trie implementation (Go sources, package
mpt: trie.go, nibbles.go, nodes.go, proof.go) against its specification.

The Go code is shallowly embedded: byte strings are lists of naturals, a
nibble is an element of `Fin 16`, the `Node` interface with its three
implementations plus the nil node becomes a four-constructor inductive type,
and the imperative pointer-walking loops of Get/Put/Prove become structural
recursions on the current node.  Go panics (index out of range) are made
explicit by `Option`-valued results.
-/

namespace MPT

/-- A byte string.  Entries are intended to be < 256; `ValidBytes` states it. -/
abbrev Bytes := List Nat

/-- Go `type Nibble byte`, always in 0..15. -/
abbrev Nibble := Fin 16

/-- All entries of a byte string are genuine bytes. -/
def ValidBytes (bs : Bytes) : Prop := ∀ b ∈ bs, b < 256

instance (bs : Bytes) : Decidable (ValidBytes bs) := by
  unfold ValidBytes; infer_instance

/-- Go `NibblesFromByte`: a byte expands to (b >> 4, b % 16), high nibble first. -/
def NibblesFromByte (b : Nat) : List Nibble :=
  [⟨b / 16 % 16, by omega⟩, ⟨b % 16, by omega⟩]

/-- Go `NibblesFromBytes`: concatenation of per-byte nibble pairs. -/
def NibblesFromBytes : Bytes → List Nibble
  | [] => []
  | b :: bs => NibblesFromByte b ++ NibblesFromBytes bs

/-- Go `AppendPrefixToNibbles`: hex-prefix header.  Odd length gets the single
header nibble 1 (3 when leaf), even length the pair 0,0 (2,0 when leaf). -/
def AppendPrefixToNibbles (ns : List Nibble) (isLeafNode : Bool) : List Nibble :=
  if ns.length % 2 = 1 then
    (if isLeafNode then (3 : Nibble) else 1) :: ns
  else
    (if isLeafNode then (2 : Nibble) else 0) :: (0 : Nibble) :: ns

/-- Go `RemovePrefixFromNibbles`: strip the hex-prefix header; `none` models the
panic on an invalid header nibble (and out-of-range slicing on short input). -/
def RemovePrefixFromNibbles (ns : List Nibble) : Option (List Nibble × Bool) :=
  match ns with
  | [] => none
  | h :: rest =>
      if h = 1 then some (rest, false)
      else if h = 3 then some (rest, true)
      else if h = 0 then
        match rest with
        | _ :: rest2 => some (rest2, false)
        | [] => none
      else if h = 2 then
        match rest with
        | _ :: rest2 => some (rest2, true)
        | [] => none
      else none

/-- Go `NibblesToBytes`: repack two nibbles per byte, high nibble first.  The
source assumes an even number of nibbles. -/
def NibblesToBytes : List Nibble → Bytes
  | h :: l :: rest => (16 * h.val + l.val) :: NibblesToBytes rest
  | _ => []

/-- Go `PrefixMatchedLen`: length of the longest common leading run. -/
def PrefixMatchedLen : List Nibble → List Nibble → Nat
  | a :: as, b :: bs => if a = b then 1 + PrefixMatchedLen as bs else 0
  | _, _ => 0

/-- The node algebra: Go's `Node` interface together with the nil node.
`LeafNode`, `BranchNode` (16 child slots and an optional value; a Go nil
`Value` is `none`) and `ExtensionNode`. -/
inductive Node where
  | empty : Node
  | leaf (path : List Nibble) (value : Bytes) : Node
  | branch (branches : Fin 16 → Node) (value : Option Bytes) : Node
  | ext (path : List Nibble) (next : Node) : Node

/-- Go `IsEmptyNode`. -/
def Node.isEmpty : Node → Bool
  | .empty => true
  | _ => false

/-- Go `BranchNode.SetBranch`: update one child slot. -/
def setBranch (cs : Fin 16 → Node) (i : Fin 16) (n : Node) : Fin 16 → Node :=
  fun j => if j = i then n else cs j

/-- Go `Trie.Get`, with the trie walk of the source loop written as structural
recursion on the current node. -/
def GetNode : Node → List Nibble → Option Bytes
  | .empty, _ => none
  | .leaf path value, nibbles =>
      let matched := PrefixMatchedLen path nibbles
      if matched ≠ path.length ∨ matched ≠ nibbles.length then none
      else some value
  | .branch branches value, nibbles =>
      match nibbles with
      | [] => value
      | b :: remaining => GetNode (branches b) remaining
  | .ext path next, nibbles =>
      let matched := PrefixMatchedLen path nibbles
      if matched < path.length then none
      else GetNode next (nibbles.drop matched)

/-- Go `Trie.Put`.  The source mutates the slot holding the current node; here
the new subtree is returned.  `none` models the Go runtime panic
`index out of range` that the ExtensionNode arm hits through
`nibbles[matched]` when the key's nibbles are exhausted strictly inside the
extension's path (`matched == len(nibbles) < len(ext.Path)`). -/
def PutNode : Node → List Nibble → Bytes → Option Node
  | .empty, nibbles, value => some (.leaf nibbles value)
  | .leaf lpath lvalue, nibbles, value =>
      let matched := PrefixMatchedLen lpath nibbles
      if matched = nibbles.length ∧ matched = lpath.length then
        some (.leaf lpath value)
      else
        let bvalue : Option Bytes :=
          if matched = lpath.length then some lvalue
          else if matched = nibbles.length then some value
          else none
        let cs1 : Fin 16 → Node :=
          if h : matched < lpath.length then
            setBranch (fun _ => .empty) (lpath.get ⟨matched, h⟩)
              (.leaf (lpath.drop (matched + 1)) lvalue)
          else fun _ => .empty
        let cs2 : Fin 16 → Node :=
          if h : matched < nibbles.length then
            setBranch cs1 (nibbles.get ⟨matched, h⟩)
              (.leaf (nibbles.drop (matched + 1)) value)
          else cs1
        let b : Node := .branch cs2 bvalue
        some (if matched > 0 then .ext (lpath.take matched) b else b)
  | .branch branches value, nibbles, value' =>
      match nibbles with
      | [] => some (.branch branches (some value'))
      | b :: remaining =>
          (PutNode (branches b) remaining value').map
            (fun child => .branch (setBranch branches b child) value)
  | .ext epath enext, nibbles, value =>
      let matched := PrefixMatchedLen epath nibbles
      if h : matched < epath.length then
        if h2 : matched < nibbles.length then
          let extRemaining := epath.drop (matched + 1)
          let oldSide : Node :=
            if extRemaining.length = 0 then enext
            else .ext extRemaining enext
          let cs : Fin 16 → Node :=
            setBranch
              (setBranch (fun _ => .empty) (epath.get ⟨matched, h⟩) oldSide)
              (nibbles.get ⟨matched, h2⟩)
              (.leaf (nibbles.drop (matched + 1)) value)
          let b : Node := .branch cs none
          some (if (epath.take matched).length = 0 then b
                else .ext (epath.take matched) b)
        else none
      else
        (PutNode enext (nibbles.drop matched) value).map
          (fun n' => .ext epath n')

/-!
RLP (recursive length-prefix) encoding, the external serializer consumed by
the core (go-ethereum `rlp.EncodeToBytes` / `rlp.DecodeBytes` applied to
nested structures of byte strings).  A value is a byte string or a list of
values; the mutual inductive keeps all recursion structural.
-/

mutual

inductive RlpItem where
  | str : Bytes → RlpItem
  | list : RlpList → RlpItem

inductive RlpList where
  | nil : RlpList
  | cons : RlpItem → RlpList → RlpList

end

/-- Big-endian byte representation of a natural number (empty for 0), as the
RLP length-of-length encoding uses.  The fuel keeps the recursion structural;
fuel at least n is always enough. -/
def beBytesAux : Nat → Nat → Bytes
  | _, 0 => []
  | 0, _ + 1 => []
  | fuel + 1, n + 1 => beBytesAux fuel ((n + 1) / 256) ++ [(n + 1) % 256]

/-- Big-endian byte representation of a natural number (empty for 0). -/
def beBytes (n : Nat) : Bytes := beBytesAux n n

/-- Lengths below 56 use a single tag byte; longer payloads a big-endian
length of length. -/
def rlpLenHeader (base : Nat) (len : Nat) : Bytes :=
  if len ≤ 55 then [base + len]
  else (base + 55 + (beBytes len).length) :: beBytes len

mutual

/-- RLP encoding of a single item. -/
def rlpEncode : RlpItem → Bytes
  | .str bs =>
      match bs with
      | [b] => if b < 128 then [b] else rlpLenHeader 128 1 ++ [b]
      | _ => rlpLenHeader 128 bs.length ++ bs
  | .list l =>
      let payload := rlpEncodeList l
      rlpLenHeader 192 payload.length ++ payload

/-- Concatenated RLP encodings of the elements of a list. -/
def rlpEncodeList : RlpList → Bytes
  | .nil => []
  | .cons x xs => rlpEncode x ++ rlpEncodeList xs

end

/-- Value of a big-endian byte string. -/
def beVal (bs : Bytes) : Nat := bs.foldl (fun a b => a * 256 + b) 0

mutual

/-- RLP decoding of one item from the head of a byte string, returning the
rest.  The fuel argument only serves termination; twice the input length is
always enough. -/
def rlpDecode (fuel : Nat) (bs : Bytes) : Option (RlpItem × Bytes) :=
  match fuel with
  | 0 => none
  | fuel + 1 =>
      match bs with
      | [] => none
      | b :: rest =>
          if b < 128 then some (.str [b], rest)
          else if b ≤ 183 then
            let n := b - 128
            if n ≤ rest.length then
              some (.str (rest.take n), rest.drop n)
            else none
          else if b ≤ 191 then
            let ll := b - 183
            if ll ≤ rest.length then
              let n := beVal (rest.take ll)
              let rest2 := rest.drop ll
              if n ≤ rest2.length then
                some (.str (rest2.take n), rest2.drop n)
              else none
            else none
          else if b ≤ 247 then
            let n := b - 192
            if n ≤ rest.length then
              match rlpDecodeList fuel (rest.take n) with
              | some l => some (.list l, rest.drop n)
              | none => none
            else none
          else
            let ll := b - 247
            if ll ≤ rest.length then
              let n := beVal (rest.take ll)
              let rest2 := rest.drop ll
              if n ≤ rest2.length then
                match rlpDecodeList fuel (rest2.take n) with
                | some l => some (.list l, rest2.drop n)
                | none => none
              else none
            else none

/-- Decode a complete byte string as a sequence of RLP items. -/
def rlpDecodeList (fuel : Nat) (bs : Bytes) : Option RlpList :=
  match fuel with
  | 0 => match bs with | [] => some .nil | _ => none
  | fuel + 1 =>
      match bs with
      | [] => some .nil
      | _ =>
          match rlpDecode fuel bs with
          | some (x, rest) =>
              match rlpDecodeList fuel rest with
              | some l => some (.cons x l)
              | none => none
          | none => none

end

/-- Decode a byte string that holds exactly one RLP item. -/
def rlpDecodeOne (bs : Bytes) : Option RlpItem :=
  match rlpDecode (2 * bs.length + 1) bs with
  | some (x, []) => some x
  | _ => none

/-- Conversion from ordinary lists for readability. -/
def RlpList.ofList : List RlpItem → RlpList
  | [] => .nil
  | x :: xs => .cons x (RlpList.ofList xs)

/-- Back to ordinary lists. -/
def RlpList.toList : RlpList → List RlpItem
  | .nil => []
  | .cons x xs => x :: RlpList.toList xs

/-!
Keccak-256, the external digest function (go-ethereum `crypto.Keccak256`).
Implemented on `Nat` with explicit reduction mod 2^64 per lane; the state is
the list of 25 lanes, lane (x, y) at index x + 5 * y.
-/

/-- Bitwise complement within a 64-bit lane. -/
def not64 (x : Nat) : Nat := Nat.xor x (2 ^ 64 - 1)

/-- Left rotation of a 64-bit lane. -/
def rotl64 (x n : Nat) : Nat :=
  (Nat.lor (Nat.shiftLeft x n) (Nat.shiftRight x (64 - n))) % 2 ^ 64

/-- ρ rotation offsets, stored per column: entry x of the outer list holds
the offsets of lanes (x, 0) .. (x, 4). -/
def rhoTable : List (List Nat) :=
  [[0, 36, 3, 41, 18],
   [1, 44, 10, 45, 2],
   [62, 6, 43, 15, 61],
   [28, 55, 25, 21, 56],
   [27, 20, 39, 8, 14]]

/-- ρ rotation offset of the lane with flat index i = x + 5 * y. -/
def rhoOff (i : Nat) : Nat :=
  (rhoTable.getD (i % 5) []).getD (i / 5) 0

/-- Keccak-f[1600] round constants. -/
def keccakRC : List Nat :=
  [0x0000000000000001, 0x0000000000008082, 0x800000000000808a, 0x8000000080008000,
   0x000000000000808b, 0x0000000080000001, 0x8000000080008081, 0x8000000000008009,
   0x000000000000008a, 0x0000000000000088, 0x0000000080008009, 0x000000008000000a,
   0x000000008000808b, 0x800000000000008b, 0x8000000000008089, 0x8000000000008003,
   0x8000000000008002, 0x8000000000000080, 0x000000000000800a, 0x800000008000000a,
   0x8000000080008081, 0x8000000000008080, 0x0000000080000001, 0x8000000080008008]

/-- One Keccak-f[1600] round: θ, ρ, π, χ, ι. -/
def keccakRound (st : List Nat) (rc : Nat) : List Nat :=
  let lane := fun (l : List Nat) (i : Nat) => l.getD i 0
  let c := fun x => Nat.xor (lane st x) (Nat.xor (lane st (x + 5))
    (Nat.xor (lane st (x + 10)) (Nat.xor (lane st (x + 15)) (lane st (x + 20)))))
  let d := fun x => Nat.xor (c ((x + 4) % 5)) (rotl64 (c ((x + 1) % 5)) 1)
  let a := fun i => Nat.xor (lane st i) (d (i % 5))
  -- ρ and π: lane (u, v) of b is lane ((3v + u) % 5, u) of a, rotated.
  let b := fun i =>
    let u := i % 5
    let v := i / 5
    let src := (3 * v + u) % 5 + 5 * u
    rotl64 (a src) (rhoOff src)
  let chi := fun i =>
    let u := i % 5
    let v := i / 5
    Nat.xor (b i) (Nat.land (not64 (b ((u + 1) % 5 + 5 * v))) (b ((u + 2) % 5 + 5 * v)))
  let st' := (List.range 25).map chi
  match st' with
  | s0 :: sr => Nat.xor s0 rc :: sr
  | [] => []

/-- The full 24-round permutation. -/
def keccakF (st : List Nat) : List Nat :=
  keccakRC.foldl keccakRound st

/-- Multi-rate padding with the original Keccak domain byte 0x01. -/
def keccakPad (len : Nat) : Bytes :=
  let padLen := 136 - len % 136
  if padLen = 1 then [0x81]
  else 0x01 :: (List.replicate (padLen - 2) 0 ++ [0x80])

/-- XOR one 136-byte block into the state, 8 bytes per lane, little-endian. -/
def absorbBlock (st : List Nat) (block : Bytes) : List Nat :=
  (List.range 25).map (fun j =>
    Nat.xor (st.getD j 0)
      (if j < 17 then
        (List.range 8).foldr (fun i acc => acc * 256 + block.getD (8 * j + i) 0) 0
      else 0))

/-- Absorb the given number of 136-byte blocks of a padded input. -/
def absorbBlocks : Nat → List Nat → Bytes → List Nat
  | 0, st, _ => st
  | nb + 1, st, bs =>
      absorbBlocks nb (keccakF (absorbBlock st (bs.take 136))) (bs.drop 136)

/-- Keccak-256 of a byte string: pad, absorb, squeeze 32 bytes (little-endian
within each lane). -/
def keccak256 (input : Bytes) : Bytes :=
  let padded := input ++ keccakPad input.length
  let st := absorbBlocks (padded.length / 136) (List.replicate 25 0) padded
  (List.range 32).map (fun i => Nat.shiftRight (st.getD (i / 8) 0) (8 * (i % 8)) % 256)

/-- Trie.go constant `EmptyNodeHash`: hex 56e81f17…63b421. -/
def EmptyNodeHash : Bytes :=
  [0x56, 0xe8, 0x1f, 0x17, 0x1b, 0xcc, 0x55, 0xa6, 0xff, 0x83, 0x45, 0xe6,
   0x92, 0xc0, 0xf8, 0x6e, 0x5b, 0x48, 0xe0, 0x1b, 0x99, 0x6c, 0xad, 0xc0,
   0x01, 0x62, 0x2f, 0xb5, 0xe3, 0x63, 0xb4, 0x21]

/-- The canonical (raw) form of a node, Go's `Raw()` methods together with
`EmptyNodeRaw` for the nil node.  Child references follow the embed-vs-hash
rule: a child whose RLP serialization is at least 32 bytes long is replaced
by its Keccak-256 digest, a shorter child is inlined verbatim. -/
def rawOf : Node → RlpItem
  | .empty => .str []
  | .leaf path value =>
      .list (.cons (.str (NibblesToBytes (AppendPrefixToNibbles path true)))
        (.cons (.str value) .nil))
  | .branch branches value =>
      .list (RlpList.ofList
        (((List.finRange 16).map (fun i =>
          if (branches i).isEmpty then RlpItem.str []
          else
            let r := rawOf (branches i)
            let s := rlpEncode r
            if 32 ≤ s.length then RlpItem.str (keccak256 s) else r)) ++
        [.str (value.getD [])]))
  | .ext path next =>
      .list (.cons (.str (NibblesToBytes (AppendPrefixToNibbles path false)))
        (.cons
          (let s := rlpEncode (rawOf next)
           if 32 ≤ s.length then .str (keccak256 s) else rawOf next)
          .nil))

/-- Go package-level `Serialize`: RLP of the raw form (`EmptyNodeRaw`, the
empty byte string, for the nil node, which `rawOf` already yields). -/
def Serialize (n : Node) : Bytes := rlpEncode (rawOf n)

/-- Go node-method `Hash()`: Keccak-256 of the serialization. -/
def nodeHash (n : Node) : Bytes := keccak256 (Serialize n)

/-- Go package-level `Hash`: the nil node has the fixed empty hash. -/
def HashOf (n : Node) : Bytes :=
  if n.isEmpty then EmptyNodeHash else nodeHash n

/-- The child reference the serializer places in a parent's raw form
(`BranchNode.Raw` slots and `ExtensionNode.Raw` next). -/
def childRef (c : Node) : RlpItem :=
  match c with
  | .empty => .str []
  | _ => if 32 ≤ (Serialize c).length then .str (nodeHash c) else rawOf c

/-- Go `Trie`: a single root node (`nil` root is `Node.empty`). -/
structure Trie where
  root : Node

/-- Go `NewTrie`. -/
def Trie.new : Trie := ⟨.empty⟩

/-- Go `Trie.Get` on byte keys. -/
def Trie.Get (t : Trie) (key : Bytes) : Option Bytes :=
  GetNode t.root (NibblesFromBytes key)

/-- Go `Trie.Put` on byte keys; `none` models the panic. -/
def Trie.Put (t : Trie) (key value : Bytes) : Option Trie :=
  (PutNode t.root (NibblesFromBytes key) value).map Trie.mk

/-- A sequence of `Put` calls, stopping at the first panic. -/
def Trie.insertAll : Trie → List (Bytes × Bytes) → Option Trie
  | t, [] => some t
  | t, (k, v) :: rest => (t.Put k v).bind (fun t' => Trie.insertAll t' rest)

/-- Go `Trie.Hash`: root hash, with the fixed constant for the empty trie. -/
def Trie.Hash (t : Trie) : Bytes :=
  if t.root.isEmpty then EmptyNodeHash else nodeHash t.root

/-!
The proof engine.  `Prove` is from proof.go; the proof bag (`ProofDB`) is a
content-addressed map from hashes to serialized nodes, modelled as an
association list where the last insertion for a key wins, as for a Go map.
-/

/-- The proof bag: insertion-ordered (hash, serialized node) pairs. -/
abbrev ProofBag := List (Bytes × Bytes)

/-- Go `ProofDB.Put` (a map write: the last value stored for a key wins). -/
def bagPut (bag : ProofBag) (k v : Bytes) : ProofBag := bag ++ [(k, v)]

/-- Go `ProofDB.Get`: the most recently stored value for the key. -/
def bagGet (bag : ProofBag) (k : Bytes) : Option Bytes :=
  (bag.reverse.find? (fun e => e.1 = k)).map (fun e => e.2)

/-- Go `Trie.Prove`: walk as in Get, inserting every visited node into the
bag keyed by its hash; divergence discards the proof. -/
def ProveNode (n : Node) (nibbles : List Nibble) (bag : ProofBag) :
    Option ProofBag × Bool :=
  let bag' := bagPut bag (HashOf n) (Serialize n)
  match n with
  | .empty => (none, false)
  | .leaf path value =>
      let matched := PrefixMatchedLen path nibbles
      if matched ≠ path.length ∨ matched ≠ nibbles.length then (none, false)
      else (some bag', true)
  | .branch branches value =>
      match nibbles with
      | [] => (some bag', value.isSome)
      | b :: remaining => ProveNode (branches b) remaining bag'
  | .ext path next =>
      let matched := PrefixMatchedLen path nibbles
      if matched < path.length then (none, false)
      else ProveNode next (nibbles.drop matched) bag'

/-- Go `Trie.Prove` on byte keys. -/
def Trie.Prove (t : Trie) (key : Bytes) : Option ProofBag × Bool :=
  ProveNode t.root (NibblesFromBytes key) []

/-- The list of nodes visited by the Get/Prove walk, in visit order (the
final node where the walk stops is included, as in `Prove`). -/
def walkNodes (n : Node) (nibbles : List Nibble) : List Node :=
  n :: (match n with
    | .branch branches _ =>
        match nibbles with
        | [] => []
        | b :: remaining => walkNodes (branches b) remaining
    | .ext path next =>
        let matched := PrefixMatchedLen path nibbles
        if matched < path.length then [] else walkNodes next (nibbles.drop matched)
    | _ => [])

/-- Errors of proof verification (spec §7). -/
inductive ProofError where
  | missingNode : ProofError
  | keyMismatch : ProofError
  | malformed : ProofError
deriving DecidableEq

/-- Modelled from the spec: the node-walk of `VerifyProof`.  The Go code
delegates verification to go-ethereum's `trie.VerifyProof`, which is not part
of this repository; this walk follows spec §4.E: interpret the decoded
canonical form by list arity (17 = Branch, 2 = Leaf or Extension by the
compact header), consume nibbles, resolve child references inline (nested
list) or through the bag (32-byte hash; the empty byte string is an absent
child, i.e. divergence), and fail with KeyMismatch on divergence, MissingNode
on an absent hash, Malformed on shape errors.  The fuel only serves
termination; the key's nibble count plus one is enough. -/
def verifyItem : Nat → RlpItem → List Nibble → ProofBag → Except ProofError Bytes
  | 0, _, _, _ => .error .malformed
  | fuel + 1, item, nibbles, bag =>
      match item with
      | .str _ => .error .malformed
      | .list l =>
          let items := l.toList
          if items.length = 17 then
            match nibbles with
            | [] =>
                match items.getD 16 (.str []) with
                | .str v => .ok v
                | .list _ => .error .malformed
            | b :: remaining =>
                match items.getD b.val (.str []) with
                | .list l2 => verifyItem fuel (.list l2) remaining bag
                | .str h =>
                    if h.length = 32 then
                      match bagGet bag h with
                      | none => .error .missingNode
                      | some s =>
                          match rlpDecodeOne s with
                          | none => .error .malformed
                          | some item2 => verifyItem fuel item2 remaining bag
                    else if h.length = 0 then .error .keyMismatch
                    else .error .malformed
          else if items.length = 2 then
            match items.getD 0 (.str []) with
            | .str pb =>
                match RemovePrefixFromNibbles (NibblesFromBytes pb) with
                | some (path, true) =>
                    if nibbles = path then
                      match items.getD 1 (.str []) with
                      | .str v => .ok v
                      | .list _ => .error .malformed
                    else .error .keyMismatch
                | some (path, false) =>
                    if path ≠ [] ∧ PrefixMatchedLen path nibbles = path.length then
                      match items.getD 1 (.str []) with
                      | .list l2 =>
                          verifyItem fuel (.list l2) (nibbles.drop path.length) bag
                      | .str h =>
                          if h.length = 32 then
                            match bagGet bag h with
                            | none => .error .missingNode
                            | some s =>
                                match rlpDecodeOne s with
                                | none => .error .malformed
                                | some item2 =>
                                    verifyItem fuel item2
                                      (nibbles.drop path.length) bag
                          else if h.length = 0 then .error .keyMismatch
                          else .error .malformed
                    else .error .keyMismatch
                | none => .error .malformed
            | .list _ => .error .malformed
          else .error .malformed

/-- Modelled from the spec: resolution of one child reference during
verification (inline nested list, or 32-byte hash dereferenced through the
bag; the empty byte string is an absent child).  `verifyItem` inlines this
resolution at its two recursion sites; this definition names it for the
statements below. -/
def verifyRef (fuel : Nat) (ref : RlpItem) (nibbles : List Nibble)
    (bag : ProofBag) : Except ProofError Bytes :=
  match ref with
  | .list l2 => verifyItem fuel (.list l2) nibbles bag
  | .str h =>
      if h.length = 32 then
        match bagGet bag h with
        | none => .error .missingNode
        | some s =>
            match rlpDecodeOne s with
            | none => .error .malformed
            | some item2 => verifyItem fuel item2 nibbles bag
      else if h.length = 0 then .error .keyMismatch
      else .error .malformed

/-- Modelled from the spec: `VerifyProof(rootHash, key, proof)`.  The Go
source calls go-ethereum's implementation, absent from this repository; this
definition follows spec §4.E steps 1–4 with the key treated as raw bytes
expanded to nibbles. -/
def VerifyProof (rootHash key : Bytes) (proof : ProofBag) :
    Except ProofError Bytes :=
  let nibbles := NibblesFromBytes key
  match bagGet proof rootHash with
  | none => .error .missingNode
  | some s =>
      match rlpDecodeOne s with
      | none => .error .malformed
      | some item => verifyItem (nibbles.length + 1) item nibbles proof

/-!
State-threading variants of the read-only operations, for the frame claim:
the walk is written to rebuild the structure it traverses, and the theorems
show the rebuilt structure is the input, i.e. the operations do not modify
the trie.
-/

/-- `Trie.Get`, returning the traversed structure alongside the result. -/
def GetNodeT : Node → List Nibble → Option Bytes × Node
  | .empty, _ => (none, .empty)
  | .leaf path value, nibbles =>
      let matched := PrefixMatchedLen path nibbles
      ((if matched ≠ path.length ∨ matched ≠ nibbles.length then none
        else some value), .leaf path value)
  | .branch branches value, nibbles =>
      match nibbles with
      | [] => (value, .branch branches value)
      | b :: remaining =>
          let r := GetNodeT (branches b) remaining
          (r.1, .branch (setBranch branches b r.2) value)
  | .ext path next, nibbles =>
      let matched := PrefixMatchedLen path nibbles
      if matched < path.length then (none, .ext path next)
      else
        let r := GetNodeT next (nibbles.drop matched)
        (r.1, .ext path r.2)

/-- `Trie.Prove`, returning the traversed structure alongside the result. -/
def ProveNodeT (n : Node) (nibbles : List Nibble) (bag : ProofBag) :
    (Option ProofBag × Bool) × Node :=
  let bag' := bagPut bag (HashOf n) (Serialize n)
  match n with
  | .empty => ((none, false), .empty)
  | .leaf path value =>
      let matched := PrefixMatchedLen path nibbles
      ((if matched ≠ path.length ∨ matched ≠ nibbles.length then (none, false)
        else (some bag', true)), .leaf path value)
  | .branch branches value =>
      match nibbles with
      | [] => ((some bag', value.isSome), .branch branches value)
      | b :: remaining =>
          let r := ProveNodeT (branches b) remaining bag'
          (r.1, .branch (setBranch branches b r.2) value)
  | .ext path next =>
      let matched := PrefixMatchedLen path nibbles
      if matched < path.length then ((none, false), .ext path next)
      else
        let r := ProveNodeT next (nibbles.drop matched) bag'
        (r.1, .ext path r.2)

/-- The serializer, returning the traversed structure alongside the raw form
(the `Hash` of a trie serializes the root recursively and reads every
node). -/
def rawOfT : Node → RlpItem × Node
  | .empty => (.str [], .empty)
  | .leaf path value => (rawOf (.leaf path value), .leaf path value)
  | .branch branches value =>
      (rawOf (.branch branches value),
        .branch (fun i => (rawOfT (branches i)).2) value)
  | .ext path next =>
      (rawOf (.ext path next), .ext path (rawOfT next).2)

/-!
Structural invariants and abstraction helpers used by the theorems.
-/

/-- Is the node a BranchNode? -/
def Node.isBranch : Node → Bool
  | .branch _ _ => true
  | _ => false

/-- The invariants of spec §3.3 on extensions: no ExtensionNode has an empty
path, and every ExtensionNode's next node is a BranchNode (in particular
never a LeafNode and never another ExtensionNode). -/
def extInvB : Node → Bool
  | .empty => true
  | .leaf _ _ => true
  | .branch branches _ => (List.finRange 16).all (fun i => extInvB (branches i))
  | .ext path next => (decide (1 ≤ path.length)) && next.isBranch && extInvB next

/-- No LeafNode anywhere in the node has an empty value. -/
def noEmptyLeafB : Node → Bool
  | .empty => true
  | .leaf _ value => !value.isEmpty
  | .branch branches _ => (List.finRange 16).all (fun i => noEmptyLeafB (branches i))
  | .ext _ next => noEmptyLeafB next

/-- Well-formedness of reachable tries: every BranchNode has at least two
occupants (two nonempty children, or a value and a nonempty child), every
ExtensionNode has a nonempty path and a BranchNode as next node. -/
def wf : Node → Prop
  | .empty => True
  | .leaf _ _ => True
  | .branch branches value =>
      ((∃ i j : Fin 16, i ≠ j ∧ ¬(branches i).isEmpty = true ∧
          ¬(branches j).isEmpty = true) ∨
        (value.isSome = true ∧ ∃ i, ¬(branches i).isEmpty = true)) ∧
      ∀ i, wf (branches i)
  | .ext path next => path ≠ [] ∧ next.isBranch = true ∧ wf next

/-- Pointwise update of an abstract key-value map. -/
def mapUpd (m : Bytes → Option Bytes) (k v : Bytes) : Bytes → Option Bytes :=
  fun k' => if k' = k then some v else m k'

/-- The final key-value map determined by a sequence of Put operations (the
last write to a key wins). -/
def mapOfList (L : List (Bytes × Bytes)) : Bytes → Option Bytes :=
  L.foldl (fun m e => mapUpd m e.1 e.2) (fun _ => none)

/-- A sequence of puts on nibble paths, mirrored on the abstract map. -/
def nmapUpd (m : List Nibble → Option Bytes) (k : List Nibble) (v : Bytes) :
    List Nibble → Option Bytes :=
  fun k' => if k' = k then some v else m k'

/-- Modelled from the spec: the `found` flag of Prove's walk classification
(§4.E).  `some found` when the walk terminates at a Leaf whose path fully
matches the remaining nibbles (found = true) or at a Branch with the
remaining path exhausted (found = whether the branch has a value); `none` on
any divergence (Leaf mismatch, Extension mismatch, or an empty child slot
before the key is exhausted). -/
def specFound : Node → List Nibble → Option Bool
  | .empty, _ => none
  | .leaf path _, nibbles => if nibbles = path then some true else none
  | .branch _ value, [] => some value.isSome
  | .branch branches _, b :: remaining => specFound (branches b) remaining
  | .ext path next, nibbles =>
      if nibbles.take path.length = path then
        specFound next (nibbles.drop path.length)
      else none

/-- Modelled from the spec: Prove's contract (§4.E): on a terminating walk
emit the bag of all traversed nodes, keyed by hash; on divergence emit no
proof and found = false. -/
def ProveSpec (n : Node) (nibbles : List Nibble) : Option ProofBag × Bool :=
  match specFound n nibbles with
  | some f =>
      (some ((walkNodes n nibbles).foldl
        (fun b m => bagPut b (HashOf m) (Serialize m)) []), f)
  | none => (none, false)

/-- Hash collisions would let a content-addressed bag confuse two distinct
serialized nodes; this states their absence along one walk (any two visited
nodes with the same hash have the same serialization). -/
def WalkCollisionFree (n : Node) (nibbles : List Nibble) : Prop :=
  ∀ m1 ∈ walkNodes n nibbles, ∀ m2 ∈ walkNodes n nibbles,
    HashOf m1 = HashOf m2 → Serialize m1 = Serialize m2

instance (n : Node) (nibbles : List Nibble) :
    Decidable (WalkCollisionFree n nibbles) := by
  unfold WalkCollisionFree; infer_instance

/-!
RLP sizes below 2^64: the length-of-length of every byte string and of
every list payload fits in the 8 length bytes the RLP format allows (always
true of data a Go program can hold).  Decoding inverts encoding on such
values.
-/
mutual

/-- Every byte-string length and list-payload length in the item is below 2^64. -/
def RlpItem.small : RlpItem → Bool
  | .str bs => decide (bs.length < 2 ^ 64)
  | .list l => RlpList.small l && decide ((rlpEncodeList l).length < 2 ^ 64)

def RlpList.small : RlpList → Bool
  | .nil => true
  | .cons x xs => RlpItem.small x && RlpList.small xs

end

/-!
Lemmas on the nibble codec and the common-prefix length.
-/

@[simp] theorem setBranch_same (cs : Fin 16 → Node) (i : Fin 16) (n : Node) :
    setBranch cs i n i = n := by
  simp [setBranch]

theorem setBranch_other (cs : Fin 16 → Node) (i j : Fin 16) (n : Node)
    (h : j ≠ i) : setBranch cs i n j = cs j := by
  simp [setBranch, h]

theorem PrefixMatchedLen_le_left :
    ∀ a b : List Nibble, PrefixMatchedLen a b ≤ a.length
  | [], _ => by simp [PrefixMatchedLen]
  | _ :: _, [] => by simp [PrefixMatchedLen]
  | x :: xs, y :: ys => by
      have ih := PrefixMatchedLen_le_left xs ys
      simp only [PrefixMatchedLen, List.length_cons]
      split <;> omega

theorem PrefixMatchedLen_le_right :
    ∀ a b : List Nibble, PrefixMatchedLen a b ≤ b.length
  | [], _ => by simp [PrefixMatchedLen]
  | _ :: _, [] => by simp [PrefixMatchedLen]
  | x :: xs, y :: ys => by
      have ih := PrefixMatchedLen_le_right xs ys
      simp only [PrefixMatchedLen, List.length_cons]
      split <;> omega

theorem PrefixMatchedLen_comm :
    ∀ a b : List Nibble, PrefixMatchedLen a b = PrefixMatchedLen b a
  | [], b => by cases b <;> simp [PrefixMatchedLen]
  | _ :: _, [] => by simp [PrefixMatchedLen]
  | x :: xs, y :: ys => by
      have ih := PrefixMatchedLen_comm xs ys
      simp only [PrefixMatchedLen]
      by_cases h : x = y
      · subst h; simp [ih]
      · rw [if_neg h, if_neg (fun hyx : y = x => h hyx.symm)]

@[simp] theorem PrefixMatchedLen_self (a : List Nibble) :
    PrefixMatchedLen a a = a.length := by
  induction a with
  | nil => simp [PrefixMatchedLen]
  | cons x xs ih => simp [PrefixMatchedLen, ih]; omega

theorem PrefixMatchedLen_eq_left_iff :
    ∀ a b : List Nibble, PrefixMatchedLen a b = a.length ↔ b.take a.length = a
  | [], b => by simp [PrefixMatchedLen]
  | x :: xs, [] => by
      simp only [PrefixMatchedLen, List.length_cons, List.take_nil]
      constructor
      · intro he; omega
      · intro he; exact absurd he (by simp)
  | x :: xs, y :: ys => by
      have ih := PrefixMatchedLen_eq_left_iff xs ys
      by_cases h : x = y
      · subst h
        simp only [PrefixMatchedLen, eq_self_iff_true, if_true, List.length_cons,
          List.take_succ_cons, List.cons.injEq, true_and]
        constructor
        · intro he; exact ih.mp (by omega)
        · intro he; have := ih.mpr he; omega
      · simp only [PrefixMatchedLen, if_neg h, List.length_cons,
          List.take_succ_cons]
        constructor
        · intro he; omega
        · intro he
          exact absurd ((List.cons.injEq y (ys.take xs.length) x xs).mp he).1
            (fun hyx => h hyx.symm)

theorem PrefixMatchedLen_take_eq :
    ∀ a b : List Nibble,
      a.take (PrefixMatchedLen a b) = b.take (PrefixMatchedLen a b)
  | [], b => by simp [PrefixMatchedLen]
  | _ :: _, [] => by simp [PrefixMatchedLen]
  | x :: xs, y :: ys => by
      have ih := PrefixMatchedLen_take_eq xs ys
      by_cases h : x = y
      · subst h
        simp [PrefixMatchedLen, Nat.add_comm 1 (PrefixMatchedLen xs ys),
          List.take_succ_cons, ih]
      · simp [PrefixMatchedLen, h]

theorem PrefixMatchedLen_get_ne (a b : List Nibble)
    (h1 : PrefixMatchedLen a b < a.length) (h2 : PrefixMatchedLen a b < b.length) :
    a.get ⟨PrefixMatchedLen a b, h1⟩ ≠ b.get ⟨PrefixMatchedLen a b, h2⟩ := by
  induction a generalizing b with
  | nil => simp at h1
  | cons x xs ih =>
      cases b with
      | nil => simp at h2
      | cons y ys =>
          by_cases h : x = y
          · subst h
            have hm : PrefixMatchedLen (x :: xs) (x :: ys) =
                1 + PrefixMatchedLen xs ys := by simp [PrefixMatchedLen]
            simp only [hm] at h1 h2 ⊢
            have h1' : PrefixMatchedLen xs ys < xs.length := by
              simp at h1; omega
            have h2' : PrefixMatchedLen xs ys < ys.length := by
              simp at h2; omega
            have := ih ys h1' h2'
            simpa [Nat.add_comm 1 (PrefixMatchedLen xs ys)] using this
          · have hm : PrefixMatchedLen (x :: xs) (y :: ys) = 0 := by
              simp [PrefixMatchedLen, h]
            simp only [hm]
            simpa using h

theorem PrefixMatchedLen_both_iff (a b : List Nibble) :
    (PrefixMatchedLen a b = a.length ∧ PrefixMatchedLen a b = b.length) ↔
      a = b := by
  constructor
  · rintro ⟨h1, h2⟩
    have ta := PrefixMatchedLen_take_eq a b
    rw [h1, List.take_length] at ta
    have hlen : a.length = b.length := by omega
    rw [ta, hlen, List.take_length]
  · rintro rfl
    simp

theorem PrefixMatchedLen_append (a t : List Nibble) :
    PrefixMatchedLen a (a ++ t) = a.length := by
  have h2 : (a ++ t).take a.length = a := by simp
  exact (PrefixMatchedLen_eq_left_iff a (a ++ t)).mpr h2

/-!
Shape lemmas for GetNode.
-/

theorem GetNode_leaf_eq (p : List Nibble) (v : Bytes) (j : List Nibble) :
    GetNode (.leaf p v) j = if j = p then some v else none := by
  simp only [GetNode]
  by_cases h : j = p
  · subst h; simp
  · have : ¬(PrefixMatchedLen p j = p.length ∧ PrefixMatchedLen p j = j.length) := by
      intro hc
      exact h ((PrefixMatchedLen_both_iff p j).mp hc).symm
    rw [if_pos, if_neg h]
    omega

theorem GetNode_ext_eq (q : List Nibble) (nn : Node) (j : List Nibble) :
    GetNode (.ext q nn) j =
      if j.take q.length = q then GetNode nn (j.drop q.length) else none := by
  simp only [GetNode]
  by_cases h : j.take q.length = q
  · have hm : PrefixMatchedLen q j = q.length :=
      (PrefixMatchedLen_eq_left_iff q j).mpr h
    rw [if_neg (by omega), if_pos h, hm]
  · have hm : PrefixMatchedLen q j ≠ q.length := by
      intro hc
      exact h ((PrefixMatchedLen_eq_left_iff q j).mp hc)
    have hle := PrefixMatchedLen_le_left q j
    rw [if_pos (by omega), if_neg h]

theorem length_take_of_le {a : List Nibble} {m : Nat} (h : m ≤ a.length) :
    (a.take m).length = m := by
  simp [List.length_take]; omega

theorem decompose_at (a : List Nibble) (m : Nat) (h : m < a.length) :
    a = a.take m ++ a.get ⟨m, h⟩ :: a.drop (m + 1) := by
  conv_lhs => rw [← List.take_append_drop m a]
  rw [List.drop_eq_get_cons h]

theorem take_take_of_le {j P : List Nibble} {m M : Nat} (hm : m ≤ M)
    (h : j.take M = P) : j.take m = P.take m := by
  rw [← h, List.take_take]
  simp [Nat.min_eq_left hm]

theorem GetNode_wrap (q : List Nibble) (B : Node) (j : List Nibble) :
    GetNode (if q.length = 0 then B else .ext q B) j =
      if j.take q.length = q then GetNode B (j.drop q.length) else none := by
  by_cases hq : q.length = 0
  · have : q = [] := List.length_eq_zero.mp hq
    subst this
    simp
  · rw [if_neg hq, GetNode_ext_eq]

end MPT

namespace MPT

theorem GetNode_wrapPos (q : List Nibble) (B : Node) (j : List Nibble) (m : Nat)
    (hq : q.length = m) :
    GetNode (if m > 0 then Node.ext q B else B) j =
      if j.take m = q then GetNode B (j.drop m) else none := by
  by_cases h0 : m > 0
  · rw [if_pos h0, GetNode_ext_eq, hq]
  · have hm : m = 0 := by omega
    subst hm
    have : q = [] := List.length_eq_zero.mp hq
    subst this
    simp

theorem lead_append (c s r : List Nibble) :
    (c ++ s).take (c ++ r).length = c ++ r ↔ s.take r.length = r := by
  rw [List.length_append, List.take_append, List.append_right_inj]

theorem drop_append_len (c s r : List Nibble) :
    (c ++ s).drop (c ++ r).length = s.drop r.length := by
  rw [List.length_append, List.drop_append]

theorem lead_get_eq (P : List Nibble) (m : Nat) (hP : m < P.length)
    (i : Nibble) (s j : List Nibble)
    (hj : j = P.take m ++ i :: s) (hlead : j.take P.length = P) :
    i = P.get ⟨m, hP⟩ := by
  have hql : (P.take m).length = m := length_take_of_le (le_of_lt hP)
  have h1 : j.take (m + 1) = P.take (m + 1) :=
    take_take_of_le (Nat.succ_le_of_lt hP) hlead
  have hjm : j.take m = P.take m :=
    take_take_of_le (le_of_lt hP) hlead
  have hjd : j.drop m = i :: s := by
    have hx := List.drop_left (P.take m) (i :: s)
    rw [hql] at hx
    rw [hj]
    exact hx
  have h2 : j.take (m + 1) = P.take m ++ [i] := by
    rw [List.take_add, hjm, hjd]
    simp
  have h3 : P.take (m + 1) = P.take m ++ [P.get ⟨m, hP⟩] := by
    rw [List.take_add, List.drop_eq_get_cons hP, List.take_succ_cons,
      List.take_zero]
  rw [h2, h3] at h1
  have h4 := List.append_cancel_left h1
  simpa using h4

theorem GetNode_branch_nil (cs : Fin 16 → Node) (v : Option Bytes) :
    GetNode (.branch cs v) [] = v := by
  simp [GetNode]

theorem GetNode_branch_cons (cs : Fin 16 → Node) (v : Option Bytes)
    (i : Fin 16) (t : List Nibble) :
    GetNode (.branch cs v) (i :: t) = GetNode (cs i) t := by
  simp [GetNode]

theorem GetNode_PutNode :
    ∀ (n : Node) (k : List Nibble) (v : Bytes) (n' : Node),
      PutNode n k v = some n' →
      ∀ j, GetNode n' j = if j = k then some v else GetNode n j
  | .empty, k, v, n' => by
      intro hp j
      simp only [PutNode, Option.some.injEq] at hp
      subst hp
      rw [GetNode_leaf_eq]
      simp [GetNode]
  | .leaf lpath lvalue, k, v, n' => by
      intro hp j
      simp only [PutNode] at hp
      by_cases hc : PrefixMatchedLen lpath k = k.length ∧
          PrefixMatchedLen lpath k = lpath.length
      · rw [if_pos hc] at hp
        have hk : lpath = k := (PrefixMatchedLen_both_iff lpath k).mp ⟨hc.2, hc.1⟩
        subst hk
        simp only [Option.some.injEq] at hp
        subst hp
        rw [GetNode_leaf_eq, GetNode_leaf_eq]
        by_cases hj : j = lpath <;> simp [hj]
      · rw [if_neg hc] at hp
        simp only [Option.some.injEq] at hp
        subst hp
        set matched := PrefixMatchedLen lpath k with hmdef
        have hml : matched ≤ lpath.length := PrefixMatchedLen_le_left _ _
        have hmk : matched ≤ k.length := PrefixMatchedLen_le_right _ _
        have htk : lpath.take matched = k.take matched :=
          PrefixMatchedLen_take_eq _ _
        have hqlen : (lpath.take matched).length = matched := length_take_of_le hml
        rw [GetNode_wrapPos _ _ _ _ hqlen]
        rw [GetNode_leaf_eq]
        by_cases hlead : j.take matched = lpath.take matched
        · rw [if_pos hlead]
          have hdec : lpath.take matched ++ j.drop matched = j := by
            rw [← hlead]; exact List.take_append_drop matched j
          cases hd : j.drop matched with
          | nil =>
            rw [hd, List.append_nil] at hdec
            have hjq : j = lpath.take matched := hdec.symm
            rw [GetNode_branch_nil]
            by_cases hml' : matched = lpath.length
            · rw [if_pos hml']
              have hlp : lpath.take matched = lpath := by
                rw [hml']; exact List.take_length lpath
              have hjlp : j = lpath := by rw [hjq, hlp]
              have hjk : j ≠ k := by
                intro he
                have hlk : lpath = k := by rw [← hjlp, he]
                obtain ⟨h1, h2⟩ := (PrefixMatchedLen_both_iff lpath k).mpr hlk
                exact hc ⟨h2, h1⟩
              rw [if_neg hjk, if_pos hjlp]
            · rw [if_neg hml']
              by_cases hmk' : matched = k.length
              · rw [if_pos hmk']
                have hkq : k.take matched = k := by
                  rw [hmk']; exact List.take_length k
                have hjk : j = k := by rw [hjq, htk, hkq]
                rw [if_pos hjk]
              · rw [if_neg hmk']
                have hjlen : j.length = matched := by rw [hjq]; exact hqlen
                have hjk : j ≠ k := by
                  intro he; apply hmk'; rw [← he, hjlen]
                have hjlp : j ≠ lpath := by
                  intro he; apply hml'; rw [← he, hjlen]
                rw [if_neg hjk, if_neg hjlp]
          | cons i t =>
            rw [hd] at hdec
            have hj : j = lpath.take matched ++ i :: t := hdec.symm
            have hjlen : j.length = matched + t.length + 1 := by
              rw [hj]; simp [hqlen]; omega
            rw [GetNode_branch_cons]
            by_cases hk' : matched < k.length
            · rw [dif_pos hk']
              have hkdec : k = lpath.take matched ++
                  k.get ⟨matched, hk'⟩ :: k.drop (matched + 1) := by
                conv_lhs => rw [decompose_at k matched hk']
                rw [htk]
              by_cases hik : i = k.get ⟨matched, hk'⟩
              · rw [hik, setBranch_same, GetNode_leaf_eq]
                by_cases ht : t = k.drop (matched + 1)
                · have hjk : j = k := by rw [hj, ht, hik, ← hkdec]
                  rw [if_pos ht, if_pos hjk]
                · have hjk : j ≠ k := by
                    intro he
                    apply ht
                    rw [hj, hkdec] at he
                    have h2 := List.append_cancel_left he
                    exact ((List.cons.injEq i t _ _).mp h2).2
                  have hjlp : j ≠ lpath := by
                    intro he
                    by_cases hl' : matched < lpath.length
                    · have he2 : lpath.take matched ++ i :: t =
                          lpath.take matched ++ lpath.get ⟨matched, hl'⟩ ::
                            lpath.drop (matched + 1) := by
                        rw [← hj, he]
                        exact decompose_at lpath matched hl'
                      have h2 := List.append_cancel_left he2
                      have h3 := ((List.cons.injEq i t _ _).mp h2).1
                      exact PrefixMatchedLen_get_ne lpath k hl' hk' (by rw [← h3, hik])
                    · have hml'' : matched = lpath.length := by omega
                      have : lpath.length = j.length := by rw [he]
                      omega
                  rw [if_neg ht, if_neg hjk, if_neg hjlp]
              · rw [setBranch_other _ _ _ _ hik]
                have hjk : j ≠ k := by
                  intro he
                  rw [hj, hkdec] at he
                  have h2 := List.append_cancel_left he
                  exact hik ((List.cons.injEq i t _ _).mp h2).1
                rw [if_neg hjk]
                by_cases hl' : matched < lpath.length
                · rw [dif_pos hl']
                  have hlpdec := decompose_at lpath matched hl'
                  by_cases hil : i = lpath.get ⟨matched, hl'⟩
                  · rw [hil, setBranch_same, GetNode_leaf_eq]
                    by_cases htl : t = lpath.drop (matched + 1)
                    · have hjlp : j = lpath := by rw [hj, htl, hil, ← hlpdec]
                      rw [if_pos htl, if_pos hjlp]
                    · have hjlp : j ≠ lpath := by
                        intro he
                        apply htl
                        have he2 : lpath.take matched ++ i :: t =
                            lpath.take matched ++ lpath.get ⟨matched, hl'⟩ ::
                              lpath.drop (matched + 1) := by
                          rw [← hj, he]
                          exact decompose_at lpath matched hl'
                        have h2 := List.append_cancel_left he2
                        exact ((List.cons.injEq i t _ _).mp h2).2
                      rw [if_neg htl, if_neg hjlp]
                  · rw [setBranch_other _ _ _ _ hil]
                    have hjlp : j ≠ lpath := by
                      intro he
                      have he2 : lpath.take matched ++ i :: t =
                          lpath.take matched ++ lpath.get ⟨matched, hl'⟩ ::
                            lpath.drop (matched + 1) := by
                        rw [← hj, he]
                        exact decompose_at lpath matched hl'
                      have h2 := List.append_cancel_left he2
                      exact hil ((List.cons.injEq i t _ _).mp h2).1
                    simp [GetNode, hjlp]
                · rw [dif_neg hl']
                  have hml'' : matched = lpath.length := by omega
                  have hjlp : j ≠ lpath := by
                    intro he
                    have : lpath.length = j.length := by rw [he]
                    omega
                  simp [GetNode, hjlp]
            · rw [dif_neg hk']
              have hmk'' : matched = k.length := by omega
              have hjk : j ≠ k := by
                intro he
                have : k.length = j.length := by rw [he]
                omega
              rw [if_neg hjk]
              by_cases hl' : matched < lpath.length
              · rw [dif_pos hl']
                have hlpdec := decompose_at lpath matched hl'
                by_cases hil : i = lpath.get ⟨matched, hl'⟩
                · rw [hil, setBranch_same, GetNode_leaf_eq]
                  by_cases htl : t = lpath.drop (matched + 1)
                  · have hjlp : j = lpath := by rw [hj, htl, hil, ← hlpdec]
                    rw [if_pos htl, if_pos hjlp]
                  · have hjlp : j ≠ lpath := by
                      intro he
                      apply htl
                      have he2 : lpath.take matched ++ i :: t =
                          lpath.take matched ++ lpath.get ⟨matched, hl'⟩ ::
                            lpath.drop (matched + 1) := by
                        rw [← hj, he]
                        exact decompose_at lpath matched hl'
                      have h2 := List.append_cancel_left he2
                      exact ((List.cons.injEq i t _ _).mp h2).2
                    rw [if_neg htl, if_neg hjlp]
                · rw [setBranch_other _ _ _ _ hil]
                  have hjlp : j ≠ lpath := by
                    intro he
                    have he2 : lpath.take matched ++ i :: t =
                        lpath.take matched ++ lpath.get ⟨matched, hl'⟩ ::
                          lpath.drop (matched + 1) := by
                      rw [← hj, he]
                      exact decompose_at lpath matched hl'
                    have h2 := List.append_cancel_left he2
                    exact hil ((List.cons.injEq i t _ _).mp h2).1
                  simp [GetNode, hjlp]
              · rw [dif_neg hl']
                have hml'' : matched = lpath.length := by omega
                have hjlp : j ≠ lpath := by
                  intro he
                  have : lpath.length = j.length := by rw [he]
                  omega
                simp [GetNode, hjlp]
        · rw [if_neg hlead]
          have hjk : j ≠ k := by
            intro he
            apply hlead
            rw [he, htk]
          have hjlp : j ≠ lpath := by
            intro he
            apply hlead
            rw [he]
          rw [if_neg hjk, if_neg hjlp]
  | .branch branches value, k, v, n' => by
      intro hp j
      cases k with
      | nil =>
          simp only [PutNode, Option.some.injEq] at hp
          subst hp
          cases j with
          | nil => simp [GetNode_branch_nil]
          | cons i t => simp [GetNode_branch_cons]
      | cons a t =>
          simp only [PutNode] at hp
          rw [Option.map_eq_some'] at hp
          obtain ⟨child, hchild, hn'⟩ := hp
          subst hn'
          have ih := GetNode_PutNode (branches a) t v child hchild
          cases j with
          | nil => simp [GetNode_branch_nil]
          | cons i s =>
              rw [GetNode_branch_cons]
              by_cases hia : i = a
              · subst hia
                rw [setBranch_same, ih s]
                by_cases hst : s = t
                · simp [hst]
                · simp [hst, GetNode_branch_cons]
              · rw [setBranch_other _ _ _ _ hia]
                have hne : i :: s ≠ a :: t := by simp [hia]
                rw [if_neg hne, GetNode_branch_cons]
  | .ext epath enext, k, v, n' => by
      intro hp j
      simp only [PutNode] at hp
      by_cases hm : PrefixMatchedLen epath k < epath.length
      · rw [dif_pos hm] at hp
        by_cases h2 : PrefixMatchedLen epath k < k.length
        · rw [dif_pos h2] at hp
          simp only [Option.some.injEq] at hp
          subst hp
          set matched := PrefixMatchedLen epath k with hmdef
          have htk : epath.take matched = k.take matched :=
            PrefixMatchedLen_take_eq _ _
          have hqlen : (epath.take matched).length = matched :=
            length_take_of_le (le_of_lt hm)
          rw [GetNode_wrap, hqlen, GetNode_ext_eq]
          by_cases hlead : j.take matched = epath.take matched
          · rw [if_pos hlead]
            have hdec : epath.take matched ++ j.drop matched = j := by
              rw [← hlead]; exact List.take_append_drop matched j
            have hkdec : k = epath.take matched ++
                k.get ⟨matched, h2⟩ :: k.drop (matched + 1) := by
              conv_lhs => rw [decompose_at k matched h2]
              rw [htk]
            cases hd : j.drop matched with
            | nil =>
                rw [hd, List.append_nil] at hdec
                have hjq : j = epath.take matched := hdec.symm
                have hjlen : j.length = matched := by rw [hjq]; exact hqlen
                rw [GetNode_branch_nil]
                have hjk : j ≠ k := by
                  intro he
                  have : k.length = j.length := by rw [he]
                  omega
                rw [if_neg hjk]
                have hnl : ¬ j.take epath.length = epath := by
                  intro he
                  have : (j.take epath.length).length = epath.length := by
                    rw [he]
                  simp [List.length_take] at this
                  omega
                rw [if_neg hnl]
            | cons i s =>
                rw [hd] at hdec
                have hj : j = epath.take matched ++ i :: s := hdec.symm
                rw [GetNode_branch_cons]
                have hgetne : ¬ epath.get ⟨matched, hm⟩ = k.get ⟨matched, h2⟩ :=
                  PrefixMatchedLen_get_ne epath k hm h2
                by_cases hik : i = k.get ⟨matched, h2⟩
                · rw [hik, setBranch_same, GetNode_leaf_eq]
                  by_cases hs : s = k.drop (matched + 1)
                  · have hjk : j = k := by rw [hj, hs, hik, ← hkdec]
                    rw [if_pos hs, if_pos hjk]
                  · have hjk : j ≠ k := by
                      intro he
                      apply hs
                      rw [hj, hkdec] at he
                      have hx := List.append_cancel_left he
                      exact ((List.cons.injEq i s _ _).mp hx).2
                    rw [if_neg hs, if_neg hjk]
                    have hnl : ¬ j.take epath.length = epath := by
                      intro he
                      have := lead_get_eq epath matched hm i s j hj he
                      rw [hik] at this
                      exact hgetne this.symm
                    rw [if_neg hnl]
                · rw [setBranch_other _ _ _ _ hik]
                  have hjk : j ≠ k := by
                    intro he
                    rw [hj, hkdec] at he
                    have hx := List.append_cancel_left he
                    exact hik ((List.cons.injEq i s _ _).mp hx).1
                  rw [if_neg hjk]
                  by_cases hie : i = epath.get ⟨matched, hm⟩
                  · rw [hie, setBranch_same]
                    rw [GetNode_wrap]
                    have hepdec : epath = epath.take matched ++
                        epath.get ⟨matched, hm⟩ :: epath.drop (matched + 1) :=
                      decompose_at epath matched hm
                    have hj2 : j = (epath.take matched ++
                        [epath.get ⟨matched, hm⟩]) ++ s := by
                      rw [hj, hie, List.append_cons]
                    have hep2 : epath = (epath.take matched ++
                        [epath.get ⟨matched, hm⟩]) ++ epath.drop (matched + 1) := by
                      conv_lhs => rw [hepdec]
                      rw [List.append_cons]
                    have hiff := lead_append
                      (epath.take matched ++ [epath.get ⟨matched, hm⟩]) s
                      (epath.drop (matched + 1))
                    rw [← hj2, ← hep2] at hiff
                    have hd2 := drop_append_len
                      (epath.take matched ++ [epath.get ⟨matched, hm⟩]) s
                      (epath.drop (matched + 1))
                    rw [← hj2, ← hep2] at hd2
                    by_cases hsl : s.take (epath.drop (matched + 1)).length =
                        epath.drop (matched + 1)
                    · rw [if_pos hsl, if_pos (hiff.mpr hsl), hd2]
                    · rw [if_neg hsl, if_neg (fun he => hsl (hiff.mp he))]
                  · rw [setBranch_other _ _ _ _ hie]
                    have hnl : ¬ j.take epath.length = epath := by
                      intro he
                      exact hie (lead_get_eq epath matched hm i s j hj he)
                    rw [if_neg hnl]
                    simp [GetNode]
          · rw [if_neg hlead]
            have hjk : j ≠ k := by
              intro he
              apply hlead
              rw [he, htk]
            rw [if_neg hjk]
            have hnl : ¬ j.take epath.length = epath := by
              intro he
              apply hlead
              exact take_take_of_le (le_of_lt hm) he
            rw [if_neg hnl]
        · rw [dif_neg h2] at hp
          exact absurd hp (by simp)
      · rw [dif_neg hm] at hp
        rw [Option.map_eq_some'] at hp
        obtain ⟨nx, hnx, hn'⟩ := hp
        subst hn'
        have hmeq : PrefixMatchedLen epath k = epath.length := by
          have := PrefixMatchedLen_le_left epath k
          omega
        have hklead : k.take epath.length = epath :=
          (PrefixMatchedLen_eq_left_iff _ _).mp hmeq
        have ih := GetNode_PutNode enext (k.drop (PrefixMatchedLen epath k)) v nx hnx
        rw [hmeq] at ih
        rw [GetNode_ext_eq, GetNode_ext_eq]
        by_cases hlead : j.take epath.length = epath
        · rw [if_pos hlead, if_pos hlead, ih]
          by_cases hdk : j.drop epath.length = k.drop epath.length
          · have hjk : j = k := by
              rw [← List.take_append_drop epath.length j,
                ← List.take_append_drop epath.length k, hlead, hklead, hdk]
            rw [if_pos hdk, if_pos hjk]
          · have hjk : j ≠ k := by intro he; apply hdk; rw [he]
            rw [if_neg hdk, if_neg hjk]
        · rw [if_neg hlead, if_neg hlead]
          have hjk : j ≠ k := by
            intro he
            apply hlead
            rw [he, hklead]
          rw [if_neg hjk]

end MPT


namespace MPT

theorem wf_empty : wf Node.empty := by simp [wf]

theorem wf_leaf (p : List Nibble) (v : Bytes) : wf (.leaf p v) := by simp [wf]

theorem isEmpty_leaf (p : List Nibble) (v : Bytes) :
    (Node.leaf p v).isEmpty = false := rfl

theorem PutNode_not_empty :
    ∀ (n : Node) (k : List Nibble) (v : Bytes) (n' : Node),
      PutNode n k v = some n' → n'.isEmpty = false
  | .empty, k, v, n' => by
      intro hp
      simp only [PutNode, Option.some.injEq] at hp
      subst hp; rfl
  | .leaf lpath lvalue, k, v, n' => by
      intro hp
      simp only [PutNode] at hp
      split at hp
      · simp only [Option.some.injEq] at hp; subst hp; rfl
      · simp only [Option.some.injEq] at hp; subst hp
        split <;> rfl
  | .branch branches value, k, v, n' => by
      intro hp
      cases k with
      | nil =>
          simp only [PutNode, Option.some.injEq] at hp
          subst hp; rfl
      | cons a t =>
          simp only [PutNode] at hp
          rw [Option.map_eq_some'] at hp
          obtain ⟨c, _, hn'⟩ := hp
          subst hn'; rfl
  | .ext epath enext, k, v, n' => by
      intro hp
      simp only [PutNode] at hp
      split at hp
      · split at hp
        · simp only [Option.some.injEq] at hp; subst hp
          split <;> rfl
        · exact absurd hp (by simp)
      · rw [Option.map_eq_some'] at hp
        obtain ⟨c, _, hn'⟩ := hp
        subst hn'; rfl

theorem PutNode_branch_isBranch (branches : Fin 16 → Node) (value : Option Bytes)
    (k : List Nibble) (v : Bytes) (n' : Node)
    (hp : PutNode (.branch branches value) k v = some n') :
    n'.isBranch = true := by
  cases k with
  | nil =>
      simp only [PutNode, Option.some.injEq] at hp
      subst hp; rfl
  | cons a t =>
      simp only [PutNode] at hp
      rw [Option.map_eq_some'] at hp
      obtain ⟨c, _, hn'⟩ := hp
      subst hn'; rfl

theorem wf_PutNode :
    ∀ (n : Node) (k : List Nibble) (v : Bytes) (n' : Node),
      wf n → PutNode n k v = some n' → wf n'
  | .empty, k, v, n' => by
      intro hw hp
      simp only [PutNode, Option.some.injEq] at hp
      subst hp
      exact wf_leaf _ _
  | .leaf lpath lvalue, k, v, n' => by
      intro hw hp
      simp only [PutNode] at hp
      by_cases hc : PrefixMatchedLen lpath k = k.length ∧
          PrefixMatchedLen lpath k = lpath.length
      · rw [if_pos hc] at hp
        simp only [Option.some.injEq] at hp
        subst hp
        exact wf_leaf _ _
      · rw [if_neg hc] at hp
        simp only [Option.some.injEq] at hp
        subst hp
        set matched := PrefixMatchedLen lpath k with hmdef
        have hml : matched ≤ lpath.length := PrefixMatchedLen_le_left _ _
        have hmk : matched ≤ k.length := PrefixMatchedLen_le_right _ _
        -- well-formedness of the constructed branch
        have hbwf : wf (Node.branch
            (if h : matched < k.length then
              setBranch
                (if h' : matched < lpath.length then
                  setBranch (fun _ => Node.empty) (lpath.get ⟨matched, h'⟩)
                    (Node.leaf (lpath.drop (matched + 1)) lvalue)
                 else fun _ => Node.empty)
                (k.get ⟨matched, h⟩) (Node.leaf (k.drop (matched + 1)) v)
             else
              (if h' : matched < lpath.length then
                setBranch (fun _ => Node.empty) (lpath.get ⟨matched, h'⟩)
                  (Node.leaf (lpath.drop (matched + 1)) lvalue)
               else fun _ => Node.empty))
            (if matched = lpath.length then some lvalue
             else if matched = k.length then some v else none)) := by
          simp only [wf]
          constructor
          · by_cases hkl : matched < k.length
            · by_cases hll : matched < lpath.length
              · left
                refine ⟨k.get ⟨matched, hkl⟩, lpath.get ⟨matched, hll⟩, ?_, ?_, ?_⟩
                · exact fun he =>
                    PrefixMatchedLen_get_ne lpath k hll hkl (he.symm)
                · rw [dif_pos hkl, setBranch_same]
                  simp [Node.isEmpty]
                · rw [dif_pos hkl,
                    setBranch_other _ _ _ _ (PrefixMatchedLen_get_ne lpath k hll hkl),
                    dif_pos hll, setBranch_same]
                  simp [Node.isEmpty]
              · right
                have hle : matched = lpath.length := by omega
                constructor
                · rw [if_pos hle]; rfl
                · refine ⟨k.get ⟨matched, hkl⟩, ?_⟩
                  rw [dif_pos hkl, setBranch_same]
                  simp [Node.isEmpty]
            · have hke : matched = k.length := by omega
              have hll : matched < lpath.length := by
                rcases Nat.lt_or_ge matched lpath.length with h | h
                · exact h
                · exact absurd ⟨hke, by omega⟩ hc
              right
              constructor
              · rw [if_neg (by omega : ¬ matched = lpath.length), if_pos hke]
                rfl
              · refine ⟨lpath.get ⟨matched, hll⟩, ?_⟩
                rw [dif_neg hkl, dif_pos hll, setBranch_same]
                simp [Node.isEmpty]
          · intro i
            by_cases hkl : matched < k.length
            · rw [dif_pos hkl]
              by_cases hik : i = k.get ⟨matched, hkl⟩
              · rw [hik, setBranch_same]; exact wf_leaf _ _
              · rw [setBranch_other _ _ _ _ hik]
                by_cases hll : matched < lpath.length
                · rw [dif_pos hll]
                  by_cases hil : i = lpath.get ⟨matched, hll⟩
                  · rw [hil, setBranch_same]; exact wf_leaf _ _
                  · rw [setBranch_other _ _ _ _ hil]; exact wf_empty
                · rw [dif_neg hll]; exact wf_empty
            · rw [dif_neg hkl]
              by_cases hll : matched < lpath.length
              · rw [dif_pos hll]
                by_cases hil : i = lpath.get ⟨matched, hll⟩
                · rw [hil, setBranch_same]; exact wf_leaf _ _
                · rw [setBranch_other _ _ _ _ hil]; exact wf_empty
              · rw [dif_neg hll]; exact wf_empty
        by_cases h0 : matched > 0
        · rw [if_pos h0]
          simp only [wf]
          refine ⟨?_, rfl, hbwf⟩
          intro he
          have : (lpath.take matched).length = matched := length_take_of_le hml
          rw [he] at this
          simp at this
          omega
        · rw [if_neg h0]
          exact hbwf
  | .branch branches value, k, v, n' => by
      intro hw hp
      simp only [wf] at hw
      obtain ⟨hocc, hchildren⟩ := hw
      cases k with
      | nil =>
          simp only [PutNode, Option.some.injEq] at hp
          subst hp
          simp only [wf]
          constructor
          · rcases hocc with ⟨i, j, hne, hi, hj⟩ | ⟨hv, i, hi⟩
            · exact Or.inl ⟨i, j, hne, hi, hj⟩
            · exact Or.inr ⟨rfl, i, hi⟩
          · exact hchildren
      | cons a t =>
          simp only [PutNode] at hp
          rw [Option.map_eq_some'] at hp
          obtain ⟨child, hchild, hn'⟩ := hp
          subst hn'
          have hcne := PutNode_not_empty (branches a) t v child hchild
          have hcwf := wf_PutNode (branches a) t v child (hchildren a) hchild
          simp only [wf]
          constructor
          · rcases hocc with ⟨i, j, hne, hi, hj⟩ | ⟨hv, i, hi⟩
            · refine Or.inl ⟨i, j, hne, ?_, ?_⟩
              · by_cases hia : i = a
                · rw [hia, setBranch_same]; simp [hcne]
                · rw [setBranch_other _ _ _ _ hia]; exact hi
              · by_cases hja : j = a
                · rw [hja, setBranch_same]; simp [hcne]
                · rw [setBranch_other _ _ _ _ hja]; exact hj
            · refine Or.inr ⟨hv, i, ?_⟩
              by_cases hia : i = a
              · rw [hia, setBranch_same]; simp [hcne]
              · rw [setBranch_other _ _ _ _ hia]; exact hi
          · intro i
            by_cases hia : i = a
            · rw [hia, setBranch_same]; exact hcwf
            · rw [setBranch_other _ _ _ _ hia]; exact hchildren i
  | .ext epath enext, k, v, n' => by
      intro hw hp
      simp only [wf] at hw
      obtain ⟨hpe, hbr, hnwf⟩ := hw
      simp only [PutNode] at hp
      by_cases hm : PrefixMatchedLen epath k < epath.length
      · rw [dif_pos hm] at hp
        by_cases h2 : PrefixMatchedLen epath k < k.length
        · rw [dif_pos h2] at hp
          simp only [Option.some.injEq] at hp
          subst hp
          set matched := PrefixMatchedLen epath k with hmdef
          have hgetne : ¬ epath.get ⟨matched, hm⟩ = k.get ⟨matched, h2⟩ :=
            PrefixMatchedLen_get_ne epath k hm h2
          have hnne : enext.isEmpty = false := by
            cases enext <;> simp_all [Node.isBranch, Node.isEmpty]
          have holdwf : wf (if (epath.drop (matched + 1)).length = 0 then enext
              else Node.ext (epath.drop (matched + 1)) enext) := by
            by_cases hdl : (epath.drop (matched + 1)).length = 0
            · rw [if_pos hdl]; exact hnwf
            · rw [if_neg hdl]
              simp only [wf]
              exact ⟨fun he => hdl (by rw [he]; rfl), hbr, hnwf⟩
          have holdne : (if (epath.drop (matched + 1)).length = 0 then enext
              else Node.ext (epath.drop (matched + 1)) enext).isEmpty = false := by
            by_cases hdl : (epath.drop (matched + 1)).length = 0
            · rw [if_pos hdl]; exact hnne
            · rw [if_neg hdl]; rfl
          have hbwf : wf (Node.branch
              (setBranch
                (setBranch (fun _ => Node.empty) (epath.get ⟨matched, hm⟩)
                  (if (epath.drop (matched + 1)).length = 0 then enext
                   else Node.ext (epath.drop (matched + 1)) enext))
                (k.get ⟨matched, h2⟩) (Node.leaf (k.drop (matched + 1)) v))
              none) := by
            simp only [wf]
            constructor
            · left
              refine ⟨k.get ⟨matched, h2⟩, epath.get ⟨matched, hm⟩,
                fun he => hgetne he.symm, ?_, ?_⟩
              · rw [setBranch_same]; simp [Node.isEmpty]
              · rw [setBranch_other _ _ _ _ hgetne, setBranch_same]
                simp only [holdne]
                simp
            · intro i
              by_cases hik : i = k.get ⟨matched, h2⟩
              · rw [hik, setBranch_same]; exact wf_leaf _ _
              · rw [setBranch_other _ _ _ _ hik]
                by_cases hie : i = epath.get ⟨matched, hm⟩
                · rw [hie, setBranch_same]; exact holdwf
                · rw [setBranch_other _ _ _ _ hie]; exact wf_empty
          by_cases h0 : (epath.take matched).length = 0
          · rw [if_pos h0]; exact hbwf
          · rw [if_neg h0]
            simp only [wf]
            exact ⟨fun he => h0 (by rw [he]; rfl), rfl, hbwf⟩
        · rw [dif_neg h2] at hp
          exact absurd hp (by simp)
      · rw [dif_neg hm] at hp
        rw [Option.map_eq_some'] at hp
        obtain ⟨nx, hnx, hn'⟩ := hp
        subst hn'
        have hnxwf := wf_PutNode enext (k.drop (PrefixMatchedLen epath k)) v nx hnwf hnx
        have hnxbr : nx.isBranch = true := by
          cases henext : enext with
          | branch bs bv =>
              rw [henext] at hnx
              exact PutNode_branch_isBranch bs bv _ v nx hnx
          | empty => rw [henext] at hbr; exact absurd hbr (by simp [Node.isBranch])
          | leaf a b => rw [henext] at hbr; exact absurd hbr (by simp [Node.isBranch])
          | ext a b => rw [henext] at hbr; exact absurd hbr (by simp [Node.isBranch])
        simp only [wf]
        exact ⟨hpe, hnxbr, hnxwf⟩

end MPT


namespace MPT

theorem exists_key :
    ∀ n : Node, wf n → n.isEmpty = false → ∃ k, GetNode n k ≠ none
  | .empty => by
      intro _ h
      simp [Node.isEmpty] at h
  | .leaf p v => by
      intro _ _
      exact ⟨p, by rw [GetNode_leaf_eq]; simp⟩
  | .branch cs val => by
      intro hw _
      simp only [wf] at hw
      obtain ⟨hocc, hch⟩ := hw
      rcases hocc with ⟨i, j, hne, hi, hj⟩ | ⟨hv, i, hi⟩
      · have hie : (cs i).isEmpty = false := by simpa using hi
        obtain ⟨t, ht⟩ := exists_key (cs i) (hch i) hie
        exact ⟨i :: t, by rw [GetNode_branch_cons]; exact ht⟩
      · refine ⟨[], ?_⟩
        rw [GetNode_branch_nil]
        exact Option.isSome_iff_ne_none.mp hv
  | .ext p nn => by
      intro hw _
      simp only [wf] at hw
      obtain ⟨hpe, hbr, hnwf⟩ := hw
      have hne : nn.isEmpty = false := by
        cases nn <;> simp_all [Node.isBranch, Node.isEmpty]
      obtain ⟨t, ht⟩ := exists_key nn hnwf hne
      refine ⟨p ++ t, ?_⟩
      rw [GetNode_ext_eq, List.take_left, List.drop_left]
      simpa using ht

theorem branch_two_keys (cs : Fin 16 → Node) (v : Option Bytes)
    (hw : wf (.branch cs v)) :
    ∃ k1 k2 : List Nibble, k1.head? ≠ k2.head? ∧
      GetNode (.branch cs v) k1 ≠ none ∧ GetNode (.branch cs v) k2 ≠ none := by
  have hw' := hw
  simp only [wf] at hw'
  obtain ⟨hocc, hch⟩ := hw'
  rcases hocc with ⟨i, j, hne, hi, hj⟩ | ⟨hv, i, hi⟩
  · have hie : (cs i).isEmpty = false := by simpa using hi
    have hje : (cs j).isEmpty = false := by simpa using hj
    obtain ⟨ti, hti⟩ := exists_key (cs i) (hch i) hie
    obtain ⟨tj, htj⟩ := exists_key (cs j) (hch j) hje
    refine ⟨i :: ti, j :: tj, ?_, ?_, ?_⟩
    · simpa using hne
    · rw [GetNode_branch_cons]; exact hti
    · rw [GetNode_branch_cons]; exact htj
  · have hie : (cs i).isEmpty = false := by simpa using hi
    obtain ⟨ti, hti⟩ := exists_key (cs i) (hch i) hie
    refine ⟨[], i :: ti, ?_, ?_, ?_⟩
    · simp
    · rw [GetNode_branch_nil]; exact Option.isSome_iff_ne_none.mp hv
    · rw [GetNode_branch_cons]; exact hti

theorem head_of_take_eq (k r : List Nibble) (hrne : r ≠ [])
    (h : k.take r.length = r) : k.head? = r.head? := by
  cases r with
  | nil => exact absurd rfl hrne
  | cons c r' =>
      cases k with
      | nil => simp at h
      | cons a k' =>
          rw [List.length_cons, List.take_succ_cons] at h
          have := ((List.cons.injEq a (k'.take r'.length) c r').mp h).1
          simp [this]

theorem leaf_key (p : List Nibble) (v : Bytes) (k : List Nibble)
    (h : GetNode (.leaf p v) k ≠ none) : k = p := by
  rw [GetNode_leaf_eq] at h
  by_cases hk : k = p
  · exact hk
  · rw [if_neg hk] at h
    exact absurd rfl h

theorem ext_lead (p : List Nibble) (nn : Node) (k : List Nibble)
    (h : GetNode (.ext p nn) k ≠ none) : k.take p.length = p := by
  rw [GetNode_ext_eq] at h
  by_cases hk : k.take p.length = p
  · exact hk
  · rw [if_neg hk] at h
    exact absurd rfl h

theorem ext_next_branch (p : List Nibble) (nn : Node) (hw : wf (.ext p nn)) :
    ∃ cs val, nn = Node.branch cs val := by
  simp only [wf] at hw
  obtain ⟨-, hbr, -⟩ := hw
  cases nn with
  | branch cs val => exact ⟨cs, val, rfl⟩
  | empty => exact absurd hbr (by simp [Node.isBranch])
  | leaf a b => exact absurd hbr (by simp [Node.isBranch])
  | ext a b => exact absurd hbr (by simp [Node.isBranch])

theorem ext_two_keys (p : List Nibble) (nn : Node) (hw : wf (.ext p nn)) :
    ∃ k1 k2 : List Nibble, k1 ≠ k2 ∧
      GetNode (.ext p nn) k1 ≠ none ∧ GetNode (.ext p nn) k2 ≠ none := by
  obtain ⟨cs, val, rfl⟩ := ext_next_branch p nn hw
  have hw' := hw
  simp only [wf] at hw'
  obtain ⟨hpe, hbr, hnwf⟩ := hw'
  obtain ⟨k1, k2, hh, h1, h2⟩ := branch_two_keys cs val hnwf
  refine ⟨p ++ k1, p ++ k2, ?_, ?_, ?_⟩
  · intro he
    exact hh (by rw [List.append_cancel_left he])
  · rw [GetNode_ext_eq, List.take_left, List.drop_left]
    simpa using h1
  · rw [GetNode_ext_eq, List.take_left, List.drop_left]
    simpa using h2

theorem ext_ext_clash (p1 : List Nibble) (nn1 : Node) (p2 : List Nibble)
    (nn2 : Node) (r : List Nibble)
    (hw1 : wf (.ext p1 nn1)) (hr : p2 = p1 ++ r) (hrne : r ≠ [])
    (h : ∀ k, GetNode (.ext p1 nn1) k = GetNode (.ext p2 nn2) k) : False := by
  obtain ⟨cs, val, rfl⟩ := ext_next_branch p1 nn1 hw1
  have hw1' := hw1
  simp only [wf] at hw1'
  obtain ⟨hpe, hbr, hnwf⟩ := hw1'
  obtain ⟨k1, k2, hh, h1, h2⟩ := branch_two_keys cs val hnwf
  have key : ∀ k, GetNode (.branch cs val) k ≠ none → k.take r.length = r := by
    intro k hk
    have hx : GetNode (.ext p1 (.branch cs val)) (p1 ++ k) ≠ none := by
      rw [GetNode_ext_eq, List.take_left, List.drop_left]
      simpa using hk
    rw [h (p1 ++ k)] at hx
    have hy := ext_lead p2 nn2 (p1 ++ k) hx
    rw [hr] at hy
    exact (lead_append p1 k r).mp hy
  have e1 := head_of_take_eq k1 r hrne (key k1 h1)
  have e2 := head_of_take_eq k2 r hrne (key k2 h2)
  exact hh (e1.trans e2.symm)

end MPT


namespace MPT

theorem Node_lookup_ext :
    ∀ (n1 n2 : Node), wf n1 → wf n2 →
      (∀ k, GetNode n1 k = GetNode n2 k) → n1 = n2
  | .empty, .empty, _, _, _ => rfl
  | .empty, .leaf p v, _, hw2, h => by
      obtain ⟨k, hk⟩ := exists_key (.leaf p v) hw2 rfl
      rw [← h k] at hk
      simp [GetNode] at hk
  | .empty, .branch cs v, _, hw2, h => by
      obtain ⟨k, hk⟩ := exists_key (.branch cs v) hw2 rfl
      rw [← h k] at hk
      simp [GetNode] at hk
  | .empty, .ext p nn, _, hw2, h => by
      obtain ⟨k, hk⟩ := exists_key (.ext p nn) hw2 rfl
      rw [← h k] at hk
      simp [GetNode] at hk
  | .leaf p v, .empty, hw1, _, h => by
      obtain ⟨k, hk⟩ := exists_key (.leaf p v) hw1 rfl
      rw [h k] at hk
      simp [GetNode] at hk
  | .branch cs v, .empty, hw1, _, h => by
      obtain ⟨k, hk⟩ := exists_key (.branch cs v) hw1 rfl
      rw [h k] at hk
      simp [GetNode] at hk
  | .ext p nn, .empty, hw1, _, h => by
      obtain ⟨k, hk⟩ := exists_key (.ext p nn) hw1 rfl
      rw [h k] at hk
      simp [GetNode] at hk
  | .leaf p1 v1, .leaf p2 v2, _, _, h => by
      have h1 := h p1
      rw [GetNode_leaf_eq, GetNode_leaf_eq, if_pos rfl] at h1
      by_cases hp : p1 = p2
      · rw [if_pos hp] at h1
        simp only [Option.some.injEq] at h1
        rw [hp, h1]
      · rw [if_neg hp] at h1
        exact absurd h1 (by simp)
  | .leaf p1 v1, .branch cs v, _, hw2, h => by
      obtain ⟨k1, k2, hh, h1, h2⟩ := branch_two_keys cs v hw2
      rw [← h k1] at h1
      rw [← h k2] at h2
      have e1 := leaf_key p1 v1 k1 h1
      have e2 := leaf_key p1 v1 k2 h2
      exact absurd (by rw [e1, e2]) hh
  | .branch cs v, .leaf p1 v1, hw1, _, h => by
      obtain ⟨k1, k2, hh, h1, h2⟩ := branch_two_keys cs v hw1
      rw [h k1] at h1
      rw [h k2] at h2
      have e1 := leaf_key p1 v1 k1 h1
      have e2 := leaf_key p1 v1 k2 h2
      exact absurd (by rw [e1, e2]) hh
  | .leaf p1 v1, .ext p nn, _, hw2, h => by
      obtain ⟨k1, k2, hne, h1, h2⟩ := ext_two_keys p nn hw2
      rw [← h k1] at h1
      rw [← h k2] at h2
      have e1 := leaf_key p1 v1 k1 h1
      have e2 := leaf_key p1 v1 k2 h2
      exact absurd (e1.trans e2.symm) hne
  | .ext p nn, .leaf p1 v1, hw1, _, h => by
      obtain ⟨k1, k2, hne, h1, h2⟩ := ext_two_keys p nn hw1
      rw [h k1] at h1
      rw [h k2] at h2
      have e1 := leaf_key p1 v1 k1 h1
      have e2 := leaf_key p1 v1 k2 h2
      exact absurd (e1.trans e2.symm) hne
  | .branch cs1 v1, .branch cs2 v2, hw1, hw2, h => by
      have hw1' := hw1
      have hw2' := hw2
      simp only [wf] at hw1' hw2'
      obtain ⟨-, hch1⟩ := hw1'
      obtain ⟨-, hch2⟩ := hw2'
      have hv : v1 = v2 := by
        have := h []
        rwa [GetNode_branch_nil, GetNode_branch_nil] at this
      have hcs : cs1 = cs2 := funext fun i =>
        Node_lookup_ext (cs1 i) (cs2 i) (hch1 i) (hch2 i) (fun t => by
          have := h (i :: t)
          rwa [GetNode_branch_cons, GetNode_branch_cons] at this)
      rw [hv, hcs]
  | .branch cs v, .ext p nn, hw1, hw2, h => by
      obtain ⟨k1, k2, hh, h1, h2⟩ := branch_two_keys cs v hw1
      have hw2' := hw2
      simp only [wf] at hw2'
      obtain ⟨hpe, -, -⟩ := hw2'
      rw [h k1] at h1
      rw [h k2] at h2
      have e1 := head_of_take_eq k1 p hpe (ext_lead p nn k1 h1)
      have e2 := head_of_take_eq k2 p hpe (ext_lead p nn k2 h2)
      exact absurd (e1.trans e2.symm) hh
  | .ext p nn, .branch cs v, hw1, hw2, h => by
      obtain ⟨k1, k2, hh, h1, h2⟩ := branch_two_keys cs v hw2
      have hw1' := hw1
      simp only [wf] at hw1'
      obtain ⟨hpe, -, -⟩ := hw1'
      rw [← h k1] at h1
      rw [← h k2] at h2
      have e1 := head_of_take_eq k1 p hpe (ext_lead p nn k1 h1)
      have e2 := head_of_take_eq k2 p hpe (ext_lead p nn k2 h2)
      exact absurd (e1.trans e2.symm) hh
  | .ext p1 nn1, .ext p2 nn2, hw1, hw2, h => by
      have hw1' := hw1
      have hw2' := hw2
      simp only [wf] at hw1' hw2'
      obtain ⟨hpe1, hbr1, hnwf1⟩ := hw1'
      obtain ⟨hpe2, hbr2, hnwf2⟩ := hw2'
      have hne1 : nn1.isEmpty = false := by
        cases nn1 <;> simp_all [Node.isBranch, Node.isEmpty]
      have hne2 : nn2.isEmpty = false := by
        cases nn2 <;> simp_all [Node.isBranch, Node.isEmpty]
      obtain ⟨t1, ht1⟩ := exists_key nn1 hnwf1 hne1
      obtain ⟨t2, ht2⟩ := exists_key nn2 hnwf2 hne2
      have hx1 : GetNode (.ext p2 nn2) (p1 ++ t1) ≠ none := by
        rw [← h (p1 ++ t1), GetNode_ext_eq, List.take_left, List.drop_left]
        simpa using ht1
      have hlead2 := ext_lead p2 nn2 (p1 ++ t1) hx1
      have hx2 : GetNode (.ext p1 nn1) (p2 ++ t2) ≠ none := by
        rw [h (p2 ++ t2), GetNode_ext_eq, List.take_left, List.drop_left]
        simpa using ht2
      have hlead1 := ext_lead p1 nn1 (p2 ++ t2) hx2
      have hp : p1 = p2 := by
        rcases Nat.lt_trichotomy p1.length p2.length with hlt | heq | hlt
        · exfalso
          have e : (p2 ++ t2).take p1.length = p2.take p1.length := by
            rw [List.take_append_eq_append_take,
              (by omega : p1.length - p2.length = 0), List.take_zero,
              List.append_nil]
          have hp1 : p1 = p2.take p1.length := hlead1.symm.trans e
          have hr : p2 = p1 ++ p2.drop p1.length := by
            conv_lhs => rw [← List.take_append_drop p1.length p2]
            rw [← hp1]
          have hrne : p2.drop p1.length ≠ [] := by
            intro he
            have := congrArg List.length he
            simp at this
            omega
          exact ext_ext_clash p1 nn1 p2 nn2 _ hw1 hr hrne h
        · have e : (p2 ++ t2).take p1.length = p2.take p1.length := by
            rw [List.take_append_eq_append_take,
              (by omega : p1.length - p2.length = 0), List.take_zero,
              List.append_nil]
          calc p1 = (p2 ++ t2).take p1.length := hlead1.symm
            _ = p2.take p1.length := e
            _ = p2.take p2.length := by rw [heq]
            _ = p2 := List.take_length p2
        · exfalso
          have e : (p1 ++ t1).take p2.length = p1.take p2.length := by
            rw [List.take_append_eq_append_take,
              (by omega : p2.length - p1.length = 0), List.take_zero,
              List.append_nil]
          have hp2 : p2 = p1.take p2.length := hlead2.symm.trans e
          have hr : p1 = p2 ++ p1.drop p2.length := by
            conv_lhs => rw [← List.take_append_drop p2.length p1]
            rw [← hp2]
          have hrne : p1.drop p2.length ≠ [] := by
            intro he
            have := congrArg List.length he
            simp at this
            omega
          exact ext_ext_clash p2 nn2 p1 nn1 _ hw2 hr hrne (fun k => (h k).symm)
      subst hp
      have hnn : nn1 = nn2 := Node_lookup_ext nn1 nn2 hnwf1 hnwf2 (fun t => by
        have := h (p1 ++ t)
        rw [GetNode_ext_eq, GetNode_ext_eq, List.take_left, List.drop_left] at this
        simpa using this)
      rw [hnn]

end MPT


namespace MPT

theorem setBranch_self (cs : Fin 16 → Node) (i : Fin 16) :
    setBranch cs i (cs i) = cs := by
  funext j
  by_cases h : j = i <;> simp [setBranch, h]

theorem NibblesFromBytes_inj :
    ∀ (a b : Bytes), ValidBytes a → ValidBytes b →
      NibblesFromBytes a = NibblesFromBytes b → a = b
  | [], [], _, _, _ => rfl
  | [], x :: xs, _, _, h => by
      simp [NibblesFromBytes, NibblesFromByte] at h
  | x :: xs, [], _, _, h => by
      simp [NibblesFromBytes, NibblesFromByte] at h
  | x :: xs, y :: ys, ha, hb, h => by
      have hx : x < 256 := ha x (by simp)
      have hy : y < 256 := hb y (by simp)
      simp only [NibblesFromBytes, NibblesFromByte, List.cons_append,
        List.nil_append, List.cons.injEq] at h
      obtain ⟨e1, e2, e3⟩ := h
      have q1 : x / 16 % 16 = y / 16 % 16 := by
        have := congrArg Fin.val e1
        simpa using this
      have q2 : x % 16 = y % 16 := by
        have := congrArg Fin.val e2
        simpa using this
      have exy : x = y := by omega
      subst exy
      rw [NibblesFromBytes_inj xs ys
        (fun b hb' => ha b (List.mem_cons_of_mem _ hb'))
        (fun b hb' => hb b (List.mem_cons_of_mem _ hb')) e3]

theorem wf_insertAll :
    ∀ (L : List (Bytes × Bytes)) (t t' : Trie),
      wf t.root → Trie.insertAll t L = some t' → wf t'.root
  | [], t, t' => by
      intro hw hp
      simp [Trie.insertAll] at hp
      rwa [← hp]
  | (k, v) :: L, t, t' => by
      intro hw hp
      simp only [Trie.insertAll] at hp
      rw [Option.bind_eq_some] at hp
      obtain ⟨t1, ht1, hrest⟩ := hp
      simp only [Trie.Put] at ht1
      rw [Option.map_eq_some'] at ht1
      obtain ⟨r1, hr1, ht1'⟩ := ht1
      have hw1 : wf t1.root := by
        rw [← ht1']
        exact wf_PutNode _ _ _ _ hw hr1
      exact wf_insertAll L t1 t' hw1 hrest

theorem GetNode_insertAll :
    ∀ (L : List (Bytes × Bytes)) (t t' : Trie),
      Trie.insertAll t L = some t' →
      ∀ j, GetNode t'.root j =
        (L.foldl (fun m e => nmapUpd m (NibblesFromBytes e.1) e.2)
          (fun j' => GetNode t.root j')) j
  | [], t, t' => by
      intro hp j
      simp [Trie.insertAll] at hp
      rw [← hp]
      rfl
  | (k, v) :: L, t, t' => by
      intro hp j
      simp only [Trie.insertAll] at hp
      rw [Option.bind_eq_some] at hp
      obtain ⟨t1, ht1, hrest⟩ := hp
      simp only [Trie.Put] at ht1
      rw [Option.map_eq_some'] at ht1
      obtain ⟨r1, hr1, ht1'⟩ := ht1
      have hbase : (fun j' => GetNode t1.root j') =
          nmapUpd (fun j' => GetNode t.root j') (NibblesFromBytes k) v := by
        funext j'
        rw [← ht1']
        simp only [nmapUpd]
        exact GetNode_PutNode t.root (NibblesFromBytes k) v r1 hr1 j'
      rw [List.foldl_cons]
      have := GetNode_insertAll L t1 t' hrest j
      rw [this, hbase]

theorem chain_not_mem :
    ∀ (L : List (Bytes × Bytes)) (m0 : List Nibble → Option Bytes)
      (j : List Nibble),
      (∀ p ∈ L, NibblesFromBytes p.1 ≠ j) →
      (L.foldl (fun m e => nmapUpd m (NibblesFromBytes e.1) e.2) m0) j = m0 j
  | [], m0, j => by intro _; rfl
  | (k, v) :: L, m0, j => by
      intro h
      rw [List.foldl_cons,
        chain_not_mem L _ j (fun p hp => h p (List.mem_cons_of_mem _ hp))]
      have hne := h (k, v) (List.mem_cons_self _ _)
      simp only [nmapUpd]
      rw [if_neg (fun he => hne he.symm)]

theorem chain_mem :
    ∀ (L : List (Bytes × Bytes)) (m0 : List Nibble → Option Bytes)
      (k : Bytes) (v : Bytes),
      ValidBytes k → (∀ p ∈ L, ValidBytes p.1) → (L.map Prod.fst).Nodup →
      (k, v) ∈ L →
      (L.foldl (fun m e => nmapUpd m (NibblesFromBytes e.1) e.2) m0)
        (NibblesFromBytes k) = some v
  | [], _, k, v => by
      intro _ _ _ h
      simp at h
  | (k0, v0) :: L, m0, k, v => by
      intro hk hval hnd hmem
      rw [List.foldl_cons]
      have hnd' : (k0 :: L.map Prod.fst).Nodup := by simpa using hnd
      rcases List.mem_cons.mp hmem with heq | hmem'
      · obtain ⟨rfl, rfl⟩ : k = k0 ∧ v = v0 := by
          constructor <;> [exact congrArg Prod.fst heq; exact congrArg Prod.snd heq]
        rw [chain_not_mem L _ _ ?_]
        · simp [nmapUpd]
        · intro p hp he
          have hpv : ValidBytes p.1 := hval p (List.mem_cons_of_mem _ hp)
          have hpk : p.1 = k := NibblesFromBytes_inj _ _ hpv hk he
          exact (List.Nodup.not_mem hnd')
            (by rw [← hpk]; exact List.mem_map_of_mem _ hp)
      · exact chain_mem L _ k v hk
          (fun p hp => hval p (List.mem_cons_of_mem _ hp))
          (by simpa using (List.nodup_cons.mp hnd').2) hmem'

theorem chain_eq_byte :
    ∀ (L : List (Bytes × Bytes)) (m0 : List Nibble → Option Bytes)
      (b0 : Bytes → Option Bytes),
      (∀ p ∈ L, ValidBytes p.1) →
      (∀ kb, ValidBytes kb → m0 (NibblesFromBytes kb) = b0 kb) →
      ∀ kb, ValidBytes kb →
        (L.foldl (fun m e => nmapUpd m (NibblesFromBytes e.1) e.2) m0)
          (NibblesFromBytes kb) =
        (L.foldl (fun m e => mapUpd m e.1 e.2) b0) kb
  | [], m0, b0 => fun _ hbase kb hkb => hbase kb hkb
  | (k0, v0) :: L, m0, b0 => by
      intro hval hbase kb hkb
      rw [List.foldl_cons, List.foldl_cons]
      refine chain_eq_byte L _ _
        (fun p hp => hval p (List.mem_cons_of_mem _ hp)) ?_ kb hkb
      intro kb' hkb'
      simp only [nmapUpd, mapUpd]
      by_cases he : kb' = k0
      · subst he
        simp
      · rw [if_neg (fun hh => he
          (NibblesFromBytes_inj _ _ hkb'
            (hval (k0, v0) (List.mem_cons_self _ _)) hh)), if_neg he]
        exact hbase kb' hkb'

theorem Trie_root_eq_of_insertAll (L L' : List (Bytes × Bytes)) (t t' : Trie)
    (hv : ∀ p ∈ L, ValidBytes p.1) (hv' : ∀ p ∈ L', ValidBytes p.1)
    (hmap : ∀ k, mapOfList L k = mapOfList L' k)
    (ht : Trie.insertAll Trie.new L = some t)
    (ht' : Trie.insertAll Trie.new L' = some t') : t.root = t'.root := by
  have hw : wf t.root := wf_insertAll L Trie.new t wf_empty ht
  have hw' : wf t'.root := wf_insertAll L' Trie.new t' wf_empty ht'
  apply Node_lookup_ext _ _ hw hw'
  intro j
  rw [GetNode_insertAll L Trie.new t ht j, GetNode_insertAll L' Trie.new t' ht' j]
  by_cases hj : ∃ kb, ValidBytes kb ∧ NibblesFromBytes kb = j
  · obtain ⟨kb, hkb, rfl⟩ := hj
    rw [chain_eq_byte L _ (fun _ => none) hv (fun _ _ => rfl) kb hkb,
      chain_eq_byte L' _ (fun _ => none) hv' (fun _ _ => rfl) kb hkb]
    exact hmap kb
  · rw [chain_not_mem L _ j (fun p hp he => hj ⟨p.1, hv p hp, he⟩),
      chain_not_mem L' _ j (fun p hp he => hj ⟨p.1, hv' p hp, he⟩)]

end MPT


namespace MPT

theorem noEmptyLeafB_branch_iff (cs : Fin 16 → Node) (bv : Option Bytes) :
    noEmptyLeafB (.branch cs bv) = true ↔ ∀ i, noEmptyLeafB (cs i) = true := by
  simp [noEmptyLeafB, List.all_eq_true, List.mem_finRange]

theorem extInvB_branch_iff (cs : Fin 16 → Node) (bv : Option Bytes) :
    extInvB (.branch cs bv) = true ↔ ∀ i, extInvB (cs i) = true := by
  simp [extInvB, List.all_eq_true, List.mem_finRange]

theorem noEmptyLeafB_wrap (q : List Nibble) (B : Node) (m : Nat) :
    noEmptyLeafB (if m > 0 then Node.ext q B else B) = noEmptyLeafB B := by
  split <;> simp [noEmptyLeafB]

theorem noEmptyLeafB_wrapLen (q : List Nibble) (B : Node) :
    noEmptyLeafB (if q.length = 0 then B else Node.ext q B) = noEmptyLeafB B := by
  split <;> simp [noEmptyLeafB]

theorem wf_extInvB : ∀ n : Node, wf n → extInvB n = true
  | .empty => fun _ => rfl
  | .leaf _ _ => fun _ => rfl
  | .branch cs v => by
      intro hw
      simp only [wf] at hw
      obtain ⟨-, hch⟩ := hw
      rw [extInvB_branch_iff]
      intro i
      exact wf_extInvB (cs i) (hch i)
  | .ext p nn => by
      intro hw
      simp only [wf] at hw
      obtain ⟨hpe, hbr, hw'⟩ := hw
      have hlen : 1 ≤ p.length := by
        cases p with
        | nil => exact absurd rfl hpe
        | cons _ _ => simp
      simp only [extInvB, Bool.and_eq_true]
      exact ⟨⟨decide_eq_true hlen, hbr⟩, wf_extInvB nn hw'⟩

theorem noEmptyLeafB_PutNode :
    ∀ (n : Node) (k : List Nibble) (v : Bytes) (n' : Node),
      noEmptyLeafB n = true → v ≠ [] → PutNode n k v = some n' →
      noEmptyLeafB n' = true
  | .empty, k, v, n' => by
      intro hn hv hp
      simp only [PutNode, Option.some.injEq] at hp
      subst hp
      simp [noEmptyLeafB, List.isEmpty_eq_false.mpr hv]
  | .leaf lpath lvalue, k, v, n' => by
      intro hn hv hp
      have hlv : lvalue.isEmpty = false := by
        simp only [noEmptyLeafB, Bool.not_eq_true'] at hn
        exact hn
      simp only [PutNode] at hp
      split at hp
      · simp only [Option.some.injEq] at hp
        subst hp
        simp [noEmptyLeafB, List.isEmpty_eq_false.mpr hv]
      · simp only [Option.some.injEq] at hp
        subst hp
        set matched := PrefixMatchedLen lpath k with hmdef
        rw [noEmptyLeafB_wrap]
        rw [noEmptyLeafB_branch_iff]
        intro i
        by_cases hkl : matched < k.length
        · rw [dif_pos hkl]
          by_cases hik : i = k.get ⟨matched, hkl⟩
          · rw [hik, setBranch_same]
            simp [noEmptyLeafB, List.isEmpty_eq_false.mpr hv]
          · rw [setBranch_other _ _ _ _ hik]
            by_cases hll : matched < lpath.length
            · rw [dif_pos hll]
              by_cases hil : i = lpath.get ⟨matched, hll⟩
              · rw [hil, setBranch_same]
                simp [noEmptyLeafB, hlv]
              · rw [setBranch_other _ _ _ _ hil]
                rfl
            · rw [dif_neg hll]
              rfl
        · rw [dif_neg hkl]
          by_cases hll : matched < lpath.length
          · rw [dif_pos hll]
            by_cases hil : i = lpath.get ⟨matched, hll⟩
            · rw [hil, setBranch_same]
              simp [noEmptyLeafB, hlv]
            · rw [setBranch_other _ _ _ _ hil]
              rfl
          · rw [dif_neg hll]
            rfl
  | .branch branches value, k, v, n' => by
      intro hn hv hp
      have hch := (noEmptyLeafB_branch_iff branches value).mp hn
      cases k with
      | nil =>
          simp only [PutNode, Option.some.injEq] at hp
          subst hp
          exact (noEmptyLeafB_branch_iff _ _).mpr hch
      | cons a t =>
          simp only [PutNode] at hp
          rw [Option.map_eq_some'] at hp
          obtain ⟨child, hchild, hn'⟩ := hp
          subst hn'
          rw [noEmptyLeafB_branch_iff]
          intro i
          by_cases hia : i = a
          · rw [hia, setBranch_same]
            exact noEmptyLeafB_PutNode (branches a) t v child (hch a) hv hchild
          · rw [setBranch_other _ _ _ _ hia]
            exact hch i
  | .ext epath enext, k, v, n' => by
      intro hn hv hp
      have hne : noEmptyLeafB enext = true := by
        simpa [noEmptyLeafB] using hn
      simp only [PutNode] at hp
      by_cases hm : PrefixMatchedLen epath k < epath.length
      · rw [dif_pos hm] at hp
        by_cases h2 : PrefixMatchedLen epath k < k.length
        · rw [dif_pos h2] at hp
          simp only [Option.some.injEq] at hp
          subst hp
          rw [noEmptyLeafB_wrapLen, noEmptyLeafB_branch_iff]
          intro i
          by_cases hik : i = k.get ⟨PrefixMatchedLen epath k, h2⟩
          · rw [hik, setBranch_same]
            simp [noEmptyLeafB, List.isEmpty_eq_false.mpr hv]
          · rw [setBranch_other _ _ _ _ hik]
            by_cases hie : i = epath.get ⟨PrefixMatchedLen epath k, hm⟩
            · rw [hie, setBranch_same]
              split
              · exact hne
              · simpa [noEmptyLeafB] using hne
            · rw [setBranch_other _ _ _ _ hie]
              rfl
        · rw [dif_neg h2] at hp
          exact absurd hp (by simp)
      · rw [dif_neg hm] at hp
        rw [Option.map_eq_some'] at hp
        obtain ⟨nx, hnx, hn'⟩ := hp
        subst hn'
        simpa [noEmptyLeafB] using
          noEmptyLeafB_PutNode enext _ v nx hne hv hnx

theorem noEmptyLeafB_insertAll :
    ∀ (L : List (Bytes × Bytes)) (t t' : Trie),
      noEmptyLeafB t.root = true → (∀ p ∈ L, p.2 ≠ []) →
      Trie.insertAll t L = some t' → noEmptyLeafB t'.root = true
  | [], t, t' => by
      intro hn _ hp
      simp [Trie.insertAll] at hp
      rwa [← hp]
  | (k, v) :: L, t, t' => by
      intro hn hval hp
      simp only [Trie.insertAll] at hp
      rw [Option.bind_eq_some] at hp
      obtain ⟨t1, ht1, hrest⟩ := hp
      simp only [Trie.Put] at ht1
      rw [Option.map_eq_some'] at ht1
      obtain ⟨r1, hr1, ht1'⟩ := ht1
      have h1 : noEmptyLeafB t1.root = true := by
        rw [← ht1']
        exact noEmptyLeafB_PutNode _ _ _ _ hn
          (hval (k, v) (List.mem_cons_self _ _)) hr1
      exact noEmptyLeafB_insertAll L t1 t' h1
        (fun p hp' => hval p (List.mem_cons_of_mem _ hp')) hrest

end MPT


namespace MPT

/-- C2 (amended): any two Put sequences from the empty trie that complete
without panicking and determine the same final key-value map over genuine
byte keys produce byte-for-byte equal root hashes; in particular, two
insertion orders of the same set of distinct keys that both complete. -/
theorem hash_order_independent (L L' : List (Bytes × Bytes))
    (hv : ∀ p ∈ L, ValidBytes p.1) (hv' : ∀ p ∈ L', ValidBytes p.1)
    (hmap : ∀ k, mapOfList L k = mapOfList L' k)
    (hs : (Trie.insertAll Trie.new L).isSome = true)
    (hs' : (Trie.insertAll Trie.new L').isSome = true) :
    (Trie.insertAll Trie.new L).map Trie.Hash =
      (Trie.insertAll Trie.new L').map Trie.Hash := by
  obtain ⟨t, ht⟩ := Option.isSome_iff_exists.mp hs
  obtain ⟨t', ht'⟩ := Option.isSome_iff_exists.mp hs'
  rw [ht, ht']
  have hroot := Trie_root_eq_of_insertAll L L' t t' hv hv' hmap ht ht'
  simp only [Option.map_some']
  congr 1
  simp only [Trie.Hash]
  rw [hroot]

/-- C2 counterexample to the claim as stated: for three distinct keys, one
insertion order completes while a permutation of it panics (Go index out of
range), so the two root hashes cannot be compared at all. -/
theorem hash_order_counterexample :
    List.Perm
      ([([1], [99]), ([1, 2], [97]), ([1, 2, 3], [98])] :
        List (Bytes × Bytes))
      [([1, 2], [97]), ([1, 2, 3], [98]), ([1], [99])] ∧
    (([([1], [99]), ([1, 2], [97]), ([1, 2, 3], [98])] :
        List (Bytes × Bytes)).map Prod.fst).Nodup ∧
    (Trie.insertAll Trie.new
      [([1], [99]), ([1, 2], [97]), ([1, 2, 3], [98])]).isSome = true ∧
    (Trie.insertAll Trie.new
      [([1, 2], [97]), ([1, 2, 3], [98]), ([1], [99])]).isSome = false := by
  decide

/-- C2 witness: two concrete orders of the same two-key set, both completing,
with equal root hash by the theorem. -/
theorem hash_order_independent_witness :
    (∀ p ∈ ([([1], [10]), ([2], [20])] : List (Bytes × Bytes)),
      ValidBytes p.1) ∧
    (∀ p ∈ ([([2], [20]), ([1], [10])] : List (Bytes × Bytes)),
      ValidBytes p.1) ∧
    (∀ k, mapOfList [([1], [10]), ([2], [20])] k =
      mapOfList [([2], [20]), ([1], [10])] k) ∧
    (Trie.insertAll Trie.new [([1], [10]), ([2], [20])]).isSome = true ∧
    (Trie.insertAll Trie.new [([2], [20]), ([1], [10])]).isSome = true ∧
    (Trie.insertAll Trie.new [([1], [10]), ([2], [20])]).map Trie.Hash =
      (Trie.insertAll Trie.new [([2], [20]), ([1], [10])]).map Trie.Hash := by
  have hmap : ∀ k : Bytes, mapOfList [([1], [10]), ([2], [20])] k =
      mapOfList [([2], [20]), ([1], [10])] k := by
    intro k
    by_cases h1 : k = [1] <;> by_cases h2 : k = [2] <;>
      simp_all [mapOfList, mapUpd]
  exact ⟨by decide, by decide, hmap, by decide, by decide,
    hash_order_independent _ _ (by decide) (by decide) hmap
      (by decide) (by decide)⟩

/-- C3 (amended): after inserting a set of pairs with distinct genuine byte
keys into the empty trie, in any order for which every Put completes without
panicking, Get returns the value of every inserted pair. -/
theorem round_trip (L : List (Bytes × Bytes)) (k v : Bytes)
    (hv : ∀ p ∈ L, ValidBytes p.1)
    (hnd : (L.map Prod.fst).Nodup)
    (hmem : (k, v) ∈ L)
    (hs : (Trie.insertAll Trie.new L).isSome = true) :
    (Trie.insertAll Trie.new L).bind (fun t => t.Get k) = some v := by
  obtain ⟨t, ht⟩ := Option.isSome_iff_exists.mp hs
  rw [ht]
  simp only [Option.some_bind, Trie.Get]
  rw [GetNode_insertAll L Trie.new t ht]
  exact chain_mem L _ k v (hv (k, v) hmem) hv hnd hmem

/-- C3 counterexample to the claim as stated: a permutation of a three-key
set panics during insertion (Go index out of range), so Get after
"inserting S in any order" does not return the stored value. -/
theorem round_trip_counterexample :
    List.Perm
      ([([1], [99]), ([1, 2], [97]), ([1, 2, 3], [98])] :
        List (Bytes × Bytes))
      [([1, 2], [97]), ([1, 2, 3], [98]), ([1], [99])] ∧
    (([1], [99]) : Bytes × Bytes) ∈
      ([([1, 2], [97]), ([1, 2, 3], [98]), ([1], [99])] :
        List (Bytes × Bytes)) ∧
    (Trie.insertAll Trie.new
      [([1, 2], [97]), ([1, 2, 3], [98]), ([1], [99])]).bind
      (fun t => t.Get [1]) = none := by
  decide

/-- C3 witness: a concrete two-key set where insertion completes and both
keys read back. -/
theorem round_trip_witness :
    (∀ p ∈ ([([1], [10]), ([2], [20])] : List (Bytes × Bytes)),
      ValidBytes p.1) ∧
    ((([([1], [10]), ([2], [20])] : List (Bytes × Bytes)).map
      Prod.fst).Nodup) ∧
    (([2], [20]) : Bytes × Bytes) ∈
      ([([1], [10]), ([2], [20])] : List (Bytes × Bytes)) ∧
    (Trie.insertAll Trie.new [([1], [10]), ([2], [20])]).isSome = true ∧
    (Trie.insertAll Trie.new [([1], [10]), ([2], [20])]).bind
      (fun t => t.Get [2]) = some [20] :=
  ⟨by decide, by decide, by decide, by decide,
    round_trip _ _ _ (by decide) (by decide) (by decide) (by decide)⟩

/-- C5 is contradicted by the code: Put panics (index out of range on
nibbles[matched] in the ExtensionNode arm) when the key's nibbles are
exhausted strictly inside an extension path, a state reachable by two prior
Puts of well-formed byte keys.  The model returns none exactly there. -/
theorem put_panics_on_prefix_key :
    (Trie.insertAll Trie.new [([1, 2], [97]), ([1, 2, 3], [98])]).isSome =
      true ∧
    ((Trie.insertAll Trie.new [([1, 2], [97]), ([1, 2, 3], [98])]).bind
      (fun t => t.Put [1] [99])).isSome = false := by
  decide

/-- C7: after every sequence of Puts from the empty trie that completes,
every ExtensionNode has a path of length at least 1 and its next node is a
BranchNode (never a LeafNode, never an ExtensionNode). -/
theorem ext_invariant_insertAll (L : List (Bytes × Bytes)) :
    Option.all (fun t => extInvB t.root) (Trie.insertAll Trie.new L) = true := by
  cases h : Trie.insertAll Trie.new L with
  | none => rfl
  | some t =>
      simp only [Option.all]
      exact wf_extInvB t.root (wf_insertAll L Trie.new t wf_empty h)

/-- C8 (amended): after every sequence of Puts with nonempty values, no
LeafNode in the trie has an empty value.  (A Put with the empty value does
store an empty-valued leaf, hence the restriction.) -/
theorem leaf_values_nonempty (L : List (Bytes × Bytes))
    (hval : ∀ p ∈ L, p.2 ≠ []) :
    Option.all (fun t => noEmptyLeafB t.root) (Trie.insertAll Trie.new L) =
      true := by
  cases h : Trie.insertAll Trie.new L with
  | none => rfl
  | some t =>
      simp only [Option.all]
      exact noEmptyLeafB_insertAll L Trie.new t rfl hval h

/-- C8 counterexample to the claim as stated: Put of the empty byte string
as value installs a LeafNode whose value is empty. -/
theorem leaf_value_empty_counterexample :
    Option.all (fun t => noEmptyLeafB t.root)
      (Trie.insertAll Trie.new [([1], [])]) = false := by
  decide

/-- C8 witness: a concrete Put with a nonempty value keeps all leaf values
nonempty. -/
theorem leaf_values_nonempty_witness :
    (∀ p ∈ ([([1], [5])] : List (Bytes × Bytes)), p.2 ≠ []) ∧
    Option.all (fun t => noEmptyLeafB t.root)
      (Trie.insertAll Trie.new [([1], [5])]) = true :=
  ⟨by decide, leaf_values_nonempty _ (by decide)⟩

end MPT


namespace MPT

set_option maxRecDepth 100000 in
/-- C6: the root hash of the empty trie is the fixed 32-byte constant
56e81f171bcc55a6ff8345e692c0f86e5b48e01b996cadc001622fb5e363b421, which is
the Keccak-256 digest of the RLP encoding of the empty byte string. -/
theorem empty_trie_hash :
    Trie.Hash Trie.new =
      [0x56, 0xe8, 0x1f, 0x17, 0x1b, 0xcc, 0x55, 0xa6, 0xff, 0x83, 0x45, 0xe6,
       0x92, 0xc0, 0xf8, 0x6e, 0x5b, 0x48, 0xe0, 0x1b, 0x99, 0x6c, 0xad, 0xc0,
       0x01, 0x62, 0x2f, 0xb5, 0xe3, 0x63, 0xb4, 0x21] ∧
    keccak256 (rlpEncode (.str [])) = EmptyNodeHash := by
  constructor
  · rfl
  · decide

theorem GetNodeT_frame :
    ∀ (n : Node) (k : List Nibble),
      (GetNodeT n k).2 = n ∧ (GetNodeT n k).1 = GetNode n k
  | .empty, _ => ⟨rfl, rfl⟩
  | .leaf p v, k => ⟨rfl, rfl⟩
  | .branch cs v, k => by
      cases k with
      | nil => exact ⟨rfl, rfl⟩
      | cons b t =>
          obtain ⟨ih2, ih1⟩ := GetNodeT_frame (cs b) t
          constructor
          · simp only [GetNodeT]
            rw [ih2, setBranch_self]
          · simp only [GetNodeT]
            rw [GetNode_branch_cons]
            exact ih1
  | .ext p nn, k => by
      by_cases hm : PrefixMatchedLen p k < p.length
      · constructor <;> simp [GetNodeT, GetNode, hm]
      · obtain ⟨ih2, ih1⟩ := GetNodeT_frame nn (k.drop (PrefixMatchedLen p k))
        constructor
        · simp only [GetNodeT]
          rw [if_neg hm]
          simp only [ih2]
        · simp only [GetNodeT, GetNode]
          rw [if_neg hm, if_neg hm]
          exact ih1

theorem ProveNodeT_frame :
    ∀ (n : Node) (k : List Nibble) (bag : ProofBag),
      (ProveNodeT n k bag).2 = n ∧ (ProveNodeT n k bag).1 = ProveNode n k bag
  | .empty, _, _ => ⟨rfl, rfl⟩
  | .leaf p v, k, bag => ⟨rfl, rfl⟩
  | .branch cs v, k, bag => by
      cases k with
      | nil => exact ⟨rfl, rfl⟩
      | cons b t =>
          obtain ⟨ih2, ih1⟩ :=
            ProveNodeT_frame (cs b) t
              (bagPut bag (HashOf (.branch cs v)) (Serialize (.branch cs v)))
          constructor
          · simp only [ProveNodeT]
            rw [ih2, setBranch_self]
          · simp only [ProveNodeT, ProveNode]
            exact ih1
  | .ext p nn, k, bag => by
      by_cases hm : PrefixMatchedLen p k < p.length
      · constructor <;> simp [ProveNodeT, ProveNode, hm]
      · obtain ⟨ih2, ih1⟩ :=
          ProveNodeT_frame nn (k.drop (PrefixMatchedLen p k))
            (bagPut bag (HashOf (.ext p nn)) (Serialize (.ext p nn)))
        constructor
        · simp only [ProveNodeT]
          rw [if_neg hm]
          simp only [ih2]
        · simp only [ProveNodeT, ProveNode]
          rw [if_neg hm, if_neg hm]
          exact ih1

theorem rawOfT_frame :
    ∀ n : Node, (rawOfT n).2 = n ∧ (rawOfT n).1 = rawOf n
  | .empty => ⟨rfl, rfl⟩
  | .leaf p v => ⟨rfl, rfl⟩
  | .branch cs v => by
      constructor
      · simp only [rawOfT]
        congr 1
        funext i
        exact (rawOfT_frame (cs i)).1
      · rfl
  | .ext p nn => by
      constructor
      · simp only [rawOfT]
        rw [(rawOfT_frame nn).1]
      · rfl

/-- C10: Get, Prove, and the serializer behind Hash do not modify the trie:
the state-threading variants of the walks return the traversed structure
unchanged while computing the same results, so the root hash is identical
before and after any Get, Hash, or Prove. -/
theorem readers_preserve_trie (n : Node) (k : List Nibble) (bag : ProofBag) :
    (GetNodeT n k).2 = n ∧ (GetNodeT n k).1 = GetNode n k ∧
    (ProveNodeT n k bag).2 = n ∧
    (ProveNodeT n k bag).1 = ProveNode n k bag ∧
    (rawOfT n).2 = n ∧ (rawOfT n).1 = rawOf n ∧
    Trie.Hash ⟨(GetNodeT n k).2⟩ = Trie.Hash ⟨n⟩ ∧
    Trie.Hash ⟨(ProveNodeT n k bag).2⟩ = Trie.Hash ⟨n⟩ :=
  ⟨(GetNodeT_frame n k).1, (GetNodeT_frame n k).2,
    (ProveNodeT_frame n k bag).1, (ProveNodeT_frame n k bag).2,
    (rawOfT_frame n).1, (rawOfT_frame n).2,
    by rw [(GetNodeT_frame n k).1],
    by rw [(ProveNodeT_frame n k bag).1]⟩

theorem ProveNode_spec_aux :
    ∀ (n : Node) (k : List Nibble) (bag : ProofBag),
      ProveNode n k bag =
        match specFound n k with
        | some f =>
            (some ((walkNodes n k).foldl
              (fun b m => bagPut b (HashOf m) (Serialize m)) bag), f)
        | none => (none, false)
  | .empty, k, bag => by
      simp [ProveNode, specFound]
  | .leaf p v, k, bag => by
      simp only [ProveNode, specFound]
      by_cases hk : k = p
      · rw [if_pos hk]
        subst hk
        rw [if_neg (by simp [PrefixMatchedLen_self])]
        simp [walkNodes]
      · rw [if_neg hk]
        have hcond : ¬(PrefixMatchedLen p k = p.length ∧
            PrefixMatchedLen p k = k.length) :=
          fun hc => hk (((PrefixMatchedLen_both_iff p k).mp hc).symm)
        rw [if_pos (by omega)]
  | .branch cs v, k, bag => by
      cases k with
      | nil => simp [ProveNode, specFound, walkNodes]
      | cons b t =>
          simp only [ProveNode, specFound, walkNodes]
          rw [ProveNode_spec_aux (cs b) t
            (bagPut bag (HashOf (.branch cs v)) (Serialize (.branch cs v)))]
          cases specFound (cs b) t <;> simp [List.foldl_cons]
  | .ext p nn, k, bag => by
      simp only [ProveNode, specFound]
      by_cases hm : PrefixMatchedLen p k < p.length
      · rw [if_pos hm]
        have hni : ¬ k.take p.length = p := fun he =>
          absurd ((PrefixMatchedLen_eq_left_iff p k).mpr he) (by omega)
        rw [if_neg hni]
      · rw [if_neg hm]
        have heq : PrefixMatchedLen p k = p.length := by
          have := PrefixMatchedLen_le_left p k
          omega
        have hlead : k.take p.length = p :=
          (PrefixMatchedLen_eq_left_iff p k).mp heq
        rw [if_pos hlead, heq]
        rw [ProveNode_spec_aux nn (k.drop p.length)
          (bagPut bag (HashOf (.ext p nn)) (Serialize (.ext p nn)))]
        cases specFound nn (k.drop p.length) <;>
          simp [walkNodes, hm, heq, List.foldl_cons]

/-- C9: Prove behaves exactly as the specification's walk classification
prescribes: the bag of all traversed nodes with found = true on a full leaf
match, the bag with found = (branch has value) when the walk ends at a
branch with the key exhausted, and no proof with found = false on any
divergence. -/
theorem prove_matches_spec (t : Trie) (key : Bytes) :
    t.Prove key = ProveSpec t.root (NibblesFromBytes key) := by
  simp only [Trie.Prove, ProveSpec]
  rw [ProveNode_spec_aux]

end MPT


namespace MPT

theorem RlpList_toList_ofList :
    ∀ xs : List RlpItem, (RlpList.ofList xs).toList = xs
  | [] => rfl
  | x :: xs => by
      simp [RlpList.ofList, RlpList.toList, RlpList_toList_ofList xs]

/-- C4: the child reference placed in a parent's canonical (raw) form — any
occupied Branch slot, and an Extension's next — is the child's 32-byte
Keccak-256 digest when the child's RLP serialization is at least 32 bytes
long, and the child's raw form inlined verbatim when it is shorter. -/
theorem child_ref_rule :
    (∀ (branches : Fin 16 → Node) (value : Option Bytes) (i : Fin 16),
      (branches i).isEmpty = false →
      (match rawOf (.branch branches value) with
       | .list l => l.toList.getD i.val (.str [])
       | .str _ => .str []) =
        (if 32 ≤ (Serialize (branches i)).length
         then .str (keccak256 (Serialize (branches i)))
         else rawOf (branches i))) ∧
    (∀ (path : List Nibble) (next : Node),
      (match rawOf (.ext path next) with
       | .list l => l.toList.getD 1 (.str [])
       | .str _ => .str []) =
        (if 32 ≤ (Serialize next).length
         then .str (keccak256 (Serialize next))
         else rawOf next)) := by
  constructor
  · intro branches value i h
    simp only [rawOf, RlpList_toList_ofList]
    rw [List.getD_append _ _ _ _ (by simp [i.isLt]), List.getD_eq_getElem?_getD,
      List.getElem?_map,
      List.getElem?_eq_getElem (by simp [i.isLt] :
        i.val < (List.finRange 16).length)]
    simp only [List.getElem_finRange, Option.map_some', Option.getD_some,
      Fin.eta]
    have hcast : ∀ hh : (List.finRange 16).length = 16,
        Fin.cast hh ⟨i.val, by simp [i.isLt]⟩ = i := fun _ => rfl
    simp only [show (Fin.cast (by simp) ⟨i.val, by simp [i.isLt]⟩ : Fin 16) = i
      from rfl]
    rw [h]
    simp [Serialize]
  · intro path next
    simp only [rawOf, RlpList.toList, Serialize]
    rfl

end MPT

namespace MPT

/-! RLP decoding inverts encoding on small items. -/

theorem beVal_append_one (bs : Bytes) (b : Nat) :
    beVal (bs ++ [b]) = 256 * beVal bs + b := by
  simp only [beVal, List.foldl_append, List.foldl_cons, List.foldl_nil]
  omega

theorem beVal_beBytesAux : ∀ (f n : Nat), n ≤ f → beVal (beBytesAux f n) = n
  | f, 0, _ => by cases f <;> simp [beBytesAux, beVal]
  | 0, n + 1, h => by omega
  | f + 1, n + 1, h => by
      rw [show beBytesAux (f + 1) (n + 1)
            = beBytesAux f ((n + 1) / 256) ++ [(n + 1) % 256] from rfl]
      rw [beVal_append_one, beVal_beBytesAux f ((n + 1) / 256) (by omega)]
      omega

theorem beVal_beBytes (n : Nat) : beVal (beBytes n) = n :=
  beVal_beBytesAux n n (le_refl n)

theorem beBytesAux_len_le : ∀ (f n j : Nat), n ≤ f → n < 256 ^ j →
    (beBytesAux f n).length ≤ j
  | f, 0, j, _, _ => by cases f <;> simp [beBytesAux]
  | 0, n + 1, j, h, _ => by omega
  | f + 1, n + 1, j, h, hj => by
      cases j with
      | zero => exact absurd hj (by norm_num)
      | succ j1 =>
          rw [show beBytesAux (f + 1) (n + 1)
                = beBytesAux f ((n + 1) / 256) ++ [(n + 1) % 256] from rfl]
          rw [List.length_append]
          have hpow : (256 : Nat) ^ (j1 + 1) = 256 * 256 ^ j1 := by
            rw [pow_succ]; ring
          have hdivlt : (n + 1) / 256 < 256 ^ j1 := by
            rw [Nat.div_lt_iff_lt_mul (by norm_num : 0 < 256)]
            omega
          have := beBytesAux_len_le f ((n + 1) / 256) j1 (by omega) hdivlt
          simp only [List.length_cons, List.length_nil]
          omega

theorem beBytes_len_le (n : Nat) (h : n < 2 ^ 64) : (beBytes n).length ≤ 8 := by
  apply beBytesAux_len_le n n 8 (le_refl n)
  rw [show (256 : Nat) ^ 8 = 2 ^ 64 from by norm_num]
  exact h

theorem beBytesAux_len_pos : ∀ (f n : Nat), 1 ≤ n → n ≤ f →
    1 ≤ (beBytesAux f n).length
  | f + 1, n + 1, _, _ => by
      rw [show beBytesAux (f + 1) (n + 1)
            = beBytesAux f ((n + 1) / 256) ++ [(n + 1) % 256] from rfl]
      simp
  | 0, n + 1, _, h => by omega
  | _, 0, h, _ => by omega

theorem beBytes_len_pos (n : Nat) (h : 1 ≤ n) : 1 ≤ (beBytes n).length :=
  beBytesAux_len_pos n n h (le_refl n)

theorem rlpLenHeader_len_pos (base len : Nat) : 1 ≤ (rlpLenHeader base len).length := by
  simp only [rlpLenHeader]
  split <;> simp

theorem rlpEncode_len_pos (x : RlpItem) : 1 ≤ (rlpEncode x).length := by
  cases x with
  | str bs =>
      match bs with
      | [] => simp [rlpEncode, rlpLenHeader]
      | [b] =>
          simp only [rlpEncode]
          split
          · simp
          · simp [rlpLenHeader]
      | b :: c :: rest =>
          simp only [rlpEncode, List.length_append]
          have := rlpLenHeader_len_pos 128 (b :: c :: rest).length
          omega
  | list l =>
      simp only [rlpEncode, List.length_append]
      have := rlpLenHeader_len_pos 192 (rlpEncodeList l).length
      omega

theorem rlpDecodeList_nil_fuel (f : Nat) : rlpDecodeList f [] = some .nil := by
  cases f <;> simp [rlpDecodeList]

theorem rlpDecodeList_cons_step (f : Nat) (b : Nat) (bs rest : Bytes)
    (x : RlpItem) (l : RlpList)
    (h1 : rlpDecode f (b :: bs) = some (x, rest))
    (h2 : rlpDecodeList f rest = some l) :
    rlpDecodeList (f + 1) (b :: bs) = some (.cons x l) := by
  simp [rlpDecodeList, h1, h2]

end MPT

namespace MPT

mutual

theorem rlpDecode_rlpEncode : ∀ (x : RlpItem), RlpItem.small x = true →
    ∀ (r : Bytes) (f : Nat), 2 * (rlpEncode x).length ≤ f →
    rlpDecode f (rlpEncode x ++ r) = some (x, r)
  | .str bs, hs, r, f, hf => by
      have hlt : bs.length < 2 ^ 64 := by simpa [RlpItem.small] using hs
      cases bs with
      | nil =>
          have he : rlpEncode (RlpItem.str []) = [128] := by
            simp [rlpEncode, rlpLenHeader]
          rw [he] at hf ⊢
          obtain ⟨f1, rfl⟩ : ∃ f1, f = f1 + 1 := ⟨f - 1, by simp at hf; omega⟩
          simp [rlpDecode]
      | cons c cs =>
          cases cs with
          | nil =>
              by_cases hc : c < 128
              · have he : rlpEncode (RlpItem.str [c]) = [c] := by
                  simp [rlpEncode, hc]
                rw [he] at hf ⊢
                obtain ⟨f1, rfl⟩ : ∃ f1, f = f1 + 1 := ⟨f - 1, by simp at hf; omega⟩
                simp [rlpDecode, hc]
              · have he : rlpEncode (RlpItem.str [c]) = [129, c] := by
                  simp [rlpEncode, hc, rlpLenHeader]
                rw [he] at hf ⊢
                obtain ⟨f1, rfl⟩ : ∃ f1, f = f1 + 1 := ⟨f - 1, by simp at hf; omega⟩
                simp [rlpDecode]
          | cons c2 cs2 =>
              have he : rlpEncode (RlpItem.str (c :: c2 :: cs2)) =
                  rlpLenHeader 128 (c :: c2 :: cs2).length ++ (c :: c2 :: cs2) := by
                simp [rlpEncode]
              rw [he] at hf ⊢
              by_cases hlen : (c :: c2 :: cs2).length ≤ 55
              · simp only [rlpLenHeader] at hf ⊢
                rw [if_pos hlen] at hf ⊢
                obtain ⟨f1, rfl⟩ : ∃ f1, f = f1 + 1 := ⟨f - 1, by simp at hf; omega⟩
                simp only [List.cons_append, List.nil_append]
                simp only [rlpDecode]
                rw [if_neg (by omega),
                    if_pos (show 128 + (c :: c2 :: cs2).length ≤ 183 by omega)]
                have hn : 128 + (c :: c2 :: cs2).length - 128
                    = (c :: c2 :: cs2).length := by omega
                rw [hn]
                rw [show c :: c2 :: (cs2 ++ r) = (c :: c2 :: cs2) ++ r from by simp]
                rw [if_pos (by simp)]
                rw [List.take_left, List.drop_left]
              · have hllle : (beBytes (c :: c2 :: cs2).length).length ≤ 8 :=
                  beBytes_len_le _ hlt
                have hllpos : 1 ≤ (beBytes (c :: c2 :: cs2).length).length :=
                  beBytes_len_pos _ (by omega)
                simp only [rlpLenHeader] at hf ⊢
                rw [if_neg hlen] at hf ⊢
                obtain ⟨f1, rfl⟩ : ∃ f1, f = f1 + 1 := ⟨f - 1, by simp at hf; omega⟩
                simp only [List.cons_append, List.append_assoc]
                simp only [rlpDecode]
                rw [if_neg (by omega), if_neg (by omega), if_pos (by omega)]
                have hll : 128 + 55 + (beBytes (c :: c2 :: cs2).length).length - 183
                    = (beBytes (c :: c2 :: cs2).length).length := by omega
                rw [hll]
                rw [List.take_left, List.drop_left, beVal_beBytes]
                rw [show c :: c2 :: (cs2 ++ r) = (c :: c2 :: cs2) ++ r from by simp]
                rw [List.take_left, List.drop_left]
                rw [if_pos (by simp), if_pos (by simp)]
  | .list l, hs, r, f, hf => by
      have hsplit : RlpList.small l = true ∧ (rlpEncodeList l).length < 2 ^ 64 := by
        simpa [RlpItem.small] using hs
      obtain ⟨hsl, hlt⟩ := hsplit
      have he : rlpEncode (RlpItem.list l) =
          rlpLenHeader 192 (rlpEncodeList l).length ++ rlpEncodeList l := by
        simp [rlpEncode]
      rw [he] at hf ⊢
      by_cases hlen : (rlpEncodeList l).length ≤ 55
      · simp only [rlpLenHeader] at hf ⊢
        rw [if_pos hlen] at hf ⊢
        obtain ⟨f1, rfl⟩ : ∃ f1, f = f1 + 1 := ⟨f - 1, by simp at hf; omega⟩
        have hrec := rlpDecodeList_rlpEncodeList l hsl f1 (by simp at hf; omega)
        simp only [List.cons_append, List.nil_append]
        simp only [rlpDecode]
        rw [if_neg (by omega), if_neg (by omega), if_neg (by omega),
            if_pos (show 192 + (rlpEncodeList l).length ≤ 247 by omega)]
        have hn : 192 + (rlpEncodeList l).length - 192
            = (rlpEncodeList l).length := by omega
        rw [hn]
        rw [if_pos (by simp)]
        rw [List.take_left, List.drop_left]
        rw [hrec]
      · have hllpos : 1 ≤ (beBytes (rlpEncodeList l).length).length :=
          beBytes_len_pos _ (by omega)
        simp only [rlpLenHeader] at hf ⊢
        rw [if_neg hlen] at hf ⊢
        obtain ⟨f1, rfl⟩ : ∃ f1, f = f1 + 1 := ⟨f - 1, by simp at hf; omega⟩
        have hrec := rlpDecodeList_rlpEncodeList l hsl f1 (by simp at hf; omega)
        simp only [List.cons_append, List.append_assoc]
        simp only [rlpDecode]
        rw [if_neg (by omega), if_neg (by omega), if_neg (by omega),
            if_neg (by omega)]
        have hll : 192 + 55 + (beBytes (rlpEncodeList l).length).length - 247
            = (beBytes (rlpEncodeList l).length).length := by omega
        rw [hll]
        rw [List.take_left, List.drop_left, beVal_beBytes]
        rw [List.take_left, List.drop_left]
        rw [if_pos (by simp), if_pos (by simp)]
        rw [hrec]

theorem rlpDecodeList_rlpEncodeList : ∀ (xs : RlpList), RlpList.small xs = true →
    ∀ (f : Nat), 2 * (rlpEncodeList xs).length < f →
    rlpDecodeList f (rlpEncodeList xs) = some xs
  | .nil, _, f, _ => by
      rw [show rlpEncodeList .nil = [] from by simp [rlpEncodeList]]
      exact rlpDecodeList_nil_fuel f
  | .cons x xs, hs, f, hf => by
      have hsplit : RlpItem.small x = true ∧ RlpList.small xs = true := by
        simpa [RlpList.small] using hs
      obtain ⟨hx, hxs⟩ := hsplit
      have hxpos := rlpEncode_len_pos x
      have he : rlpEncodeList (RlpList.cons x xs)
          = rlpEncode x ++ rlpEncodeList xs := by
        simp [rlpEncodeList]
      rw [he] at hf ⊢
      obtain ⟨f1, rfl⟩ : ∃ f1, f = f1 + 1 := ⟨f - 1, by omega⟩
      have hd := rlpDecode_rlpEncode x hx (rlpEncodeList xs) f1 (by simp at hf; omega)
      have hl := rlpDecodeList_rlpEncodeList xs hxs f1 (by simp at hf; omega)
      obtain ⟨b0, bs0, hbs⟩ :
          ∃ b0 bs0, rlpEncode x ++ rlpEncodeList xs = b0 :: bs0 := by
        cases hE : rlpEncode x with
        | nil => rw [hE] at hxpos; simp at hxpos
        | cons a as => exact ⟨a, as ++ rlpEncodeList xs, by simp [hE]⟩
      rw [hbs] at hd ⊢
      exact rlpDecodeList_cons_step f1 b0 bs0 (rlpEncodeList xs) x xs hd hl

end

theorem rlpDecodeOne_rlpEncode (x : RlpItem) (hs : RlpItem.small x = true) :
    rlpDecodeOne (rlpEncode x) = some x := by
  have h := rlpDecode_rlpEncode x hs [] (2 * (rlpEncode x).length + 1) (by omega)
  rw [List.append_nil] at h
  simp [rlpDecodeOne, h]

end MPT

namespace MPT

/-! Hex-prefix compact encoding roundtrip. -/

theorem NibblesFromBytes_NibblesToBytes :
    ∀ (ns : List Nibble), ns.length % 2 = 0 →
    NibblesFromBytes (NibblesToBytes ns) = ns
  | [], _ => rfl
  | [x], h => by simp at h
  | h :: l :: rest, hlen => by
      have hh := h.isLt
      have hl := l.isLt
      rw [show NibblesToBytes (h :: l :: rest)
            = (16 * h.val + l.val) :: NibblesToBytes rest from rfl]
      rw [show NibblesFromBytes ((16 * h.val + l.val) :: NibblesToBytes rest)
            = NibblesFromByte (16 * h.val + l.val)
              ++ NibblesFromBytes (NibblesToBytes rest) from rfl]
      rw [NibblesFromBytes_NibblesToBytes rest (by simp at hlen ⊢; omega)]
      simp only [NibblesFromByte, List.cons_append, List.nil_append,
        List.cons.injEq]
      have e1 : (16 * h.val + l.val) / 16 % 16 = h.val := by omega
      have e2 : (16 * h.val + l.val) % 16 = l.val := by omega
      exact ⟨Fin.ext e1, Fin.ext e2, trivial⟩

theorem AppendPrefixToNibbles_len_even (ns : List Nibble) (flag : Bool) :
    (AppendPrefixToNibbles ns flag).length % 2 = 0 := by
  simp only [AppendPrefixToNibbles]
  split
  · simp only [List.length_cons]
    omega
  · simp only [List.length_cons]
    omega

theorem RemovePrefix_AppendPrefix (ns : List Nibble) (flag : Bool) :
    RemovePrefixFromNibbles (AppendPrefixToNibbles ns flag) = some (ns, flag) := by
  simp only [AppendPrefixToNibbles]
  by_cases ho : ns.length % 2 = 1 <;> cases flag <;>
    simp [ho, RemovePrefixFromNibbles]

theorem compactRoundTrip (ns : List Nibble) (flag : Bool) :
    RemovePrefixFromNibbles (NibblesFromBytes (NibblesToBytes
      (AppendPrefixToNibbles ns flag))) = some (ns, flag) := by
  rw [NibblesFromBytes_NibblesToBytes _ (AppendPrefixToNibbles_len_even ns flag),
      RemovePrefix_AppendPrefix]

end MPT

namespace MPT

/-! Soundness of the spec-modelled verification walk against the Get walk. -/

theorem keccak256_length (bs : Bytes) : (keccak256 bs).length = 32 := by
  simp [keccak256]

theorem rawOf_isList (c : Node) (h : c.isEmpty = false) :
    ∃ l, rawOf c = .list l := by
  cases c with
  | empty => simp [Node.isEmpty] at h
  | leaf p v =>
      exact ⟨.cons (.str (NibblesToBytes (AppendPrefixToNibbles p true)))
          (.cons (.str v) .nil), by simp [rawOf]⟩
  | branch cs v =>
      exact ⟨RlpList.ofList
          (((List.finRange 16).map (fun i =>
            if (cs i).isEmpty then RlpItem.str []
            else if 32 ≤ (rlpEncode (rawOf (cs i))).length
              then RlpItem.str (keccak256 (rlpEncode (rawOf (cs i))))
              else rawOf (cs i))) ++ [.str (v.getD [])]), by simp [rawOf]⟩
  | ext p nn =>
      exact ⟨.cons (.str (NibblesToBytes (AppendPrefixToNibbles p false)))
          (.cons (if 32 ≤ (rlpEncode (rawOf nn)).length
            then RlpItem.str (keccak256 (rlpEncode (rawOf nn)))
            else rawOf nn) .nil), by simp [rawOf]⟩

theorem finRange_map_getD {α : Type} (f : Fin 16 → α) (tail : List α) (d : α)
    (i : Fin 16) :
    (((List.finRange 16).map f) ++ tail).getD i.val d = f i := by
  rw [List.getD_append _ _ _ _ (by simp [i.isLt]), List.getD_eq_getElem?_getD,
    List.getElem?_map,
    List.getElem?_eq_getElem (by simp [i.isLt] :
      i.val < (List.finRange 16).length)]
  simp only [List.getElem_finRange, Option.map_some', Option.getD_some, Fin.eta]
  rfl

theorem finRange_map_getD_16 {α : Type} (f : Fin 16 → α) (x d : α) :
    (((List.finRange 16).map f) ++ [x]).getD 16 d = x := by
  rw [List.getD_eq_getElem?_getD, List.getElem?_append_right (by simp)]
  simp

theorem self_mem_walkNodes (n : Node) (nib : List Nibble) :
    n ∈ walkNodes n nib := by
  cases n <;> cases nib <;> simp [walkNodes]

theorem walkNodes_branch_cons (cs : Fin 16 → Node) (bv : Option Bytes)
    (b : Nibble) (remaining : List Nibble) :
    walkNodes (.branch cs bv) (b :: remaining)
      = .branch cs bv :: walkNodes (cs b) remaining := by
  simp [walkNodes]

theorem verifyItem_sound : ∀ (n : Node) (nibbles : List Nibble) (v : Bytes)
    (bag : ProofBag) (fuel : Nat),
    GetNode n nibbles = some v → extInvB n = true →
    (∀ m ∈ walkNodes n nibbles, m.isEmpty = false →
        bagGet bag (nodeHash m) = some (Serialize m)) →
    (∀ m ∈ walkNodes n nibbles, RlpItem.small (rawOf m) = true) →
    nibbles.length + 1 ≤ fuel →
    verifyItem fuel (rawOf n) nibbles bag = .ok v
  | .empty, nibbles, v, bag, fuel, hget, _, _, _, _ => by
      simp [GetNode] at hget
  | .leaf p w, j, v, bag, fuel, hget, _, _, _, hfuel => by
      rw [GetNode_leaf_eq] at hget
      by_cases hjp : j = p
      · rw [if_pos hjp] at hget
        subst hjp
        obtain ⟨f1, rfl⟩ : ∃ f1, fuel = f1 + 1 := ⟨fuel - 1, by omega⟩
        simp only [rawOf, verifyItem, RlpList.toList]
        rw [if_neg (by simp), if_pos (by simp)]
        simp only [List.getD_cons_zero, List.getD_cons_succ]
        rw [compactRoundTrip]
        simp only [Option.some.injEq] at hget
        simp [hget]
      · rw [if_neg hjp] at hget
        exact absurd hget (by simp)
  | .branch cs bv, j, v, bag, fuel, hget, hinv, hbag, hsmall, hfuel => by
      cases j with
      | nil =>
          rw [GetNode_branch_nil] at hget
          obtain ⟨f1, rfl⟩ : ∃ f1, fuel = f1 + 1 := ⟨fuel - 1, by omega⟩
          simp only [rawOf, verifyItem, RlpList_toList_ofList]
          rw [if_pos (by simp)]
          rw [finRange_map_getD_16]
          rw [hget]
          simp
      | cons b remaining =>
          rw [GetNode_branch_cons] at hget
          obtain ⟨f1, rfl⟩ : ∃ f1, fuel = f1 + 1 := ⟨fuel - 1, by omega⟩
          have hne : (cs b).isEmpty = false := by
            cases hcb : cs b with
            | empty => rw [hcb] at hget; simp [GetNode] at hget
            | leaf _ _ => simp [Node.isEmpty]
            | branch _ _ => simp [Node.isEmpty]
            | ext _ _ => simp [Node.isEmpty]
          have hwalk : walkNodes (.branch cs bv) (b :: remaining)
              = .branch cs bv :: walkNodes (cs b) remaining :=
            walkNodes_branch_cons cs bv b remaining
          have hchildmem : cs b ∈ walkNodes (.branch cs bv) (b :: remaining) := by
            rw [hwalk]
            exact List.mem_cons_of_mem _ (self_mem_walkNodes _ _)
          have hinv1 : extInvB (cs b) = true :=
            (extInvB_branch_iff cs bv).mp hinv b
          have hIH := verifyItem_sound (cs b) remaining v bag f1 hget hinv1
            (fun m hm h1 =>
              hbag m (by rw [hwalk]; exact List.mem_cons_of_mem _ hm) h1)
            (fun m hm =>
              hsmall m (by rw [hwalk]; exact List.mem_cons_of_mem _ hm))
            (by simp at hfuel; omega)
          simp only [rawOf, verifyItem, RlpList_toList_ofList]
          rw [if_pos (by simp)]
          rw [finRange_map_getD]
          rw [if_neg (by simp [hne])]
          by_cases hlen : 32 ≤ (rlpEncode (rawOf (cs b))).length
          · rw [if_pos hlen]
            have hk := keccak256_length (rlpEncode (rawOf (cs b)))
            have hb := hbag (cs b) hchildmem hne
            simp only [nodeHash, Serialize] at hb
            have hdec := rlpDecodeOne_rlpEncode (rawOf (cs b))
              (hsmall (cs b) hchildmem)
            simp [hk, hb, hdec]
            exact hIH
          · rw [if_neg hlen]
            obtain ⟨l2, hl2⟩ := rawOf_isList (cs b) hne
            rw [hl2]
            rw [hl2] at hIH
            exact hIH
  | .ext q nn, j, v, bag, fuel, hget, hinv, hbag, hsmall, hfuel => by
      rw [GetNode_ext_eq] at hget
      by_cases htake : j.take q.length = q
      case neg =>
        rw [if_neg htake] at hget
        exact absurd hget (by simp)
      rw [if_pos htake] at hget
      simp only [extInvB, Bool.and_eq_true, decide_eq_true_eq] at hinv
      obtain ⟨⟨hq1, hbr⟩, hinvn⟩ := hinv
      have hpml : PrefixMatchedLen q j = q.length :=
        (PrefixMatchedLen_eq_left_iff q j).mpr htake
      have hnne : nn.isEmpty = false := by
        cases nn <;> simp_all [Node.isBranch, Node.isEmpty]
      have hwalk : walkNodes (.ext q nn) j
          = .ext q nn :: walkNodes nn (j.drop q.length) := by
        simp [walkNodes, hpml]
      have hjlen := PrefixMatchedLen_le_right q j
      rw [hpml] at hjlen
      obtain ⟨f1, rfl⟩ : ∃ f1, fuel = f1 + 1 := ⟨fuel - 1, by omega⟩
      have hIH := verifyItem_sound nn (j.drop q.length) v bag f1 hget hinvn
        (fun m hm h1 =>
          hbag m (by rw [hwalk]; exact List.mem_cons_of_mem _ hm) h1)
        (fun m hm =>
          hsmall m (by rw [hwalk]; exact List.mem_cons_of_mem _ hm))
        (by simp [List.length_drop]; omega)
      have hmemn : nn ∈ walkNodes (.ext q nn) j := by
        rw [hwalk]
        exact List.mem_cons_of_mem _ (self_mem_walkNodes _ _)
      have hqne : q ≠ [] := by
        intro h0
        rw [h0] at hq1
        simp at hq1
      simp only [rawOf, verifyItem, RlpList.toList]
      rw [if_neg (by simp), if_pos (by simp)]
      simp only [List.getD_cons_zero, List.getD_cons_succ]
      rw [compactRoundTrip]
      simp only [hpml, ne_eq]
      rw [if_pos (show ¬q = [] ∧ True from ⟨hqne, trivial⟩)]
      by_cases hlen : 32 ≤ (rlpEncode (rawOf nn)).length
      · rw [if_pos hlen]
        have hk := keccak256_length (rlpEncode (rawOf nn))
        have hb := hbag nn hmemn hnne
        simp only [nodeHash, Serialize] at hb
        have hdec := rlpDecodeOne_rlpEncode (rawOf nn) (hsmall nn hmemn)
        simp [hk, hb, hdec]
        exact hIH
      · rw [if_neg hlen]
        obtain ⟨l2, hl2⟩ := rawOf_isList nn hnne
        rw [hl2]
        rw [hl2] at hIH
        exact hIH

end MPT

namespace MPT

theorem specFound_of_get : ∀ (n : Node) (k : List Nibble) (v : Bytes),
    GetNode n k = some v → specFound n k = some true
  | .empty, k, v, h => by simp [GetNode] at h
  | .leaf p w, k, v, h => by
      rw [GetNode_leaf_eq] at h
      by_cases hk : k = p
      · simp [specFound, hk]
      · rw [if_neg hk] at h
        exact absurd h (by simp)
  | .branch cs bv, [], v, h => by
      rw [GetNode_branch_nil] at h
      simp [specFound, h]
  | .branch cs bv, b :: rest, v, h => by
      rw [GetNode_branch_cons] at h
      simp only [specFound]
      exact specFound_of_get (cs b) rest v h
  | .ext q nn, k, v, h => by
      rw [GetNode_ext_eq] at h
      by_cases hk : k.take q.length = q
      · rw [if_pos hk] at h
        simp only [specFound]
        rw [if_pos hk]
        exact specFound_of_get nn (k.drop q.length) v h
      · rw [if_neg hk] at h
        exact absurd h (by simp)

theorem foldl_bagPut_eq : ∀ (ms : List Node) (bag0 : ProofBag),
    ms.foldl (fun b m => bagPut b (HashOf m) (Serialize m)) bag0
      = bag0 ++ ms.map (fun m => (HashOf m, Serialize m))
  | [], bag0 => by simp
  | m :: ms, bag0 => by
      simp only [List.foldl_cons, List.map_cons]
      rw [foldl_bagPut_eq ms (bagPut bag0 (HashOf m) (Serialize m))]
      simp [bagPut]

theorem bagGet_pairs (ms : List Node) (m : Node) (hm : m ∈ ms)
    (hcol : ∀ m1 ∈ ms, ∀ m2 ∈ ms, HashOf m1 = HashOf m2 →
      Serialize m1 = Serialize m2) :
    bagGet (ms.map (fun m2 => (HashOf m2, Serialize m2))) (HashOf m)
      = some (Serialize m) := by
  unfold bagGet
  cases hf : (ms.map (fun m2 => (HashOf m2, Serialize m2))).reverse.find?
      (fun e => e.1 = HashOf m) with
  | none =>
      exfalso
      have hmem : (HashOf m, Serialize m)
          ∈ (ms.map (fun m2 => (HashOf m2, Serialize m2))).reverse := by
        rw [List.mem_reverse]
        exact List.mem_map_of_mem _ hm
      have hfa := List.find?_eq_none.mp hf _ hmem
      simp at hfa
  | some e =>
      have hpe := List.find?_some hf
      have hmem := List.mem_of_find?_eq_some hf
      rw [List.mem_reverse] at hmem
      obtain ⟨m2, hm2, he⟩ := List.mem_map.mp hmem
      rw [← he] at hpe ⊢
      simp only [decide_eq_true_eq] at hpe
      simp only [Option.map_some']
      rw [hcol m2 hm2 m hm hpe]

end MPT

namespace MPT

/-- C1: proof soundness.  For any trie and key present with value v —
under the always-true-in-practice side conditions that the serialized nodes
on the walk are RLP-small (lengths below 2^64) and that Keccak-256 does not
collide on the walk — `Prove key` yields a bag with found = true, and
`VerifyProof` (modelled from the spec, as the Go code delegates it to
go-ethereum) on the root hash, the key and that bag returns exactly v. -/
theorem proof_soundness (t : Trie) (key v : Bytes)
    (hget : t.Get key = some v)
    (hinv : extInvB t.root = true)
    (hsmall : (walkNodes t.root (NibblesFromBytes key)).all
      (fun m => RlpItem.small (rawOf m)) = true)
    (hcol : WalkCollisionFree t.root (NibblesFromBytes key)) :
    ∃ bag, t.Prove key = (some bag, true) ∧
      VerifyProof t.Hash key bag = .ok v := by
  have hget1 : GetNode t.root (NibblesFromBytes key) = some v := hget
  have hfound := specFound_of_get t.root (NibblesFromBytes key) v hget1
  have hrne : t.root.isEmpty = false := by
    cases hr : t.root with
    | empty => rw [hr] at hget1; simp [GetNode] at hget1
    | leaf _ _ => simp [Node.isEmpty]
    | branch _ _ => simp [Node.isEmpty]
    | ext _ _ => simp [Node.isEmpty]
  have hsmallAll : ∀ m ∈ walkNodes t.root (NibblesFromBytes key),
      RlpItem.small (rawOf m) = true := List.all_eq_true.mp hsmall
  have hp : t.Prove key = (some ((walkNodes t.root (NibblesFromBytes key)).map
      (fun m => (HashOf m, Serialize m))), true) := by
    show ProveNode t.root (NibblesFromBytes key) [] = _
    rw [ProveNode_spec_aux, hfound, foldl_bagPut_eq, List.nil_append]
  refine ⟨(walkNodes t.root (NibblesFromBytes key)).map
      (fun m => (HashOf m, Serialize m)), hp, ?_⟩
  have hbagAll : ∀ m ∈ walkNodes t.root (NibblesFromBytes key),
      m.isEmpty = false →
      bagGet ((walkNodes t.root (NibblesFromBytes key)).map
        (fun m2 => (HashOf m2, Serialize m2))) (nodeHash m)
          = some (Serialize m) := by
    intro m hm hne
    have hb := bagGet_pairs (walkNodes t.root (NibblesFromBytes key)) m hm hcol
    rwa [show HashOf m = nodeHash m from by simp [HashOf, hne]] at hb
  have hrootmem := self_mem_walkNodes t.root (NibblesFromBytes key)
  have hhash : t.Hash = nodeHash t.root := by simp [Trie.Hash, hrne]
  simp only [VerifyProof, hhash]
  rw [hbagAll t.root hrootmem hrne]
  have hdec := rlpDecodeOne_rlpEncode (rawOf t.root) (hsmallAll t.root hrootmem)
  rw [show rlpEncode (rawOf t.root) = Serialize t.root from rfl] at hdec
  simp only [hdec]
  exact verifyItem_sound t.root (NibblesFromBytes key) v _
    ((NibblesFromBytes key).length + 1) hget1 hinv hbagAll hsmallAll
    (le_refl _)

end MPT

namespace MPT

set_option maxRecDepth 100000 in
theorem proof_soundness_witness :
    ((Trie.new.Put [1, 2] [99]).getD Trie.new).Get [1, 2] = some [99] ∧
    ∃ bag, ((Trie.new.Put [1, 2] [99]).getD Trie.new).Prove [1, 2]
        = (some bag, true) ∧
      VerifyProof ((Trie.new.Put [1, 2] [99]).getD Trie.new).Hash [1, 2] bag
        = .ok [99] :=
  ⟨by decide, proof_soundness _ _ _ (by decide) (by decide) (by decide)
    (by decide)⟩

theorem child_ref_rule_witness :
    ((fun j : Fin 16 => if j = 0 then Node.leaf [] [7] else Node.empty)
        0).isEmpty = false ∧
    (match rawOf (.branch
        (fun j : Fin 16 => if j = 0 then Node.leaf [] [7] else Node.empty)
        none) with
     | .list l => l.toList.getD (0 : Fin 16).val (.str [])
     | .str _ => .str []) =
      (if 32 ≤ (Serialize ((fun j : Fin 16 =>
            if j = 0 then Node.leaf [] [7] else Node.empty) 0)).length
       then .str (keccak256 (Serialize ((fun j : Fin 16 =>
            if j = 0 then Node.leaf [] [7] else Node.empty) 0)))
       else rawOf ((fun j : Fin 16 =>
            if j = 0 then Node.leaf [] [7] else Node.empty) 0)) :=
  ⟨by decide, child_ref_rule.1 _ none 0 (by decide)⟩

end MPT
